import Mathlib

/-!
Verification of `brownie.datastructures` (file `brownie/datastructures/__init__.py`)
against its natural-language specification.

Each Lean definition is a shallow embedding of the corresponding Python
definition; comments cite the Python source by symbol name.  Keys and values
are modelled as `Nat`, counts as `Int`, dictionaries as association lists.
-/

namespace Brownie

/-! ## Counter (class `Counter`)

A `Counter` is a `dict` mapping elements to integer counts; `__missing__`
returns 0, so indexing an absent element reads as count 0.  We model the
dictionary as an association list with (by construction) no duplicate keys.
-/

/-- A `Counter`'s contents: element ↦ stored count. -/
abbrev Cnt := List (Nat × Int)

/-- `self[element]` on a `Counter`: the stored count, or 0 via `__missing__`. -/
def cntGet (c : Cnt) (k : Nat) : Int :=
  match c.find? (fun p => p.1 == k) with
  | some p => p.2
  | none => 0

/-- The key set of a counter, in storage order (Python `set(self)` iterates
the dict's keys; the set union `set(self) | set(other)` is modelled as the
left keys followed by the right keys not already present — the claims below
only depend on the resulting membership, not on this order). -/
def cntKeys (c : Cnt) : List Nat := c.map Prod.fst

/-- `set(self) | set(other)` as a duplicate-free key list. -/
def cntKeyUnion (c1 c2 : Cnt) : List Nat :=
  cntKeys c1 ++ (cntKeys c2).filter (fun k => !(cntKeys c1).contains k)

/-- `Counter.__add__`: for every element of `set(self) | set(other)` compute
`self[element] + other[element]` and keep it only when positive. -/
def cntAdd (c1 c2 : Cnt) : Cnt :=
  (cntKeyUnion c1 c2).filterMap (fun k =>
    let newcount := cntGet c1 k + cntGet c2 k
    if newcount > 0 then some (k, newcount) else none)

/-- `Counter.__or__`: per-element maximum, positive results kept. -/
def cntOr (c1 c2 : Cnt) : Cnt :=
  (cntKeyUnion c1 c2).filterMap (fun k =>
    let newcount := max (cntGet c1 k) (cntGet c2 k)
    if newcount > 0 then some (k, newcount) else none)

/-- `Counter.__mul__`: iterates `self`'s own elements, keeping `count * other`
when positive. -/
def cntMul (c : Cnt) (n : Int) : Cnt :=
  (cntKeys c).filterMap (fun k =>
    let newcount := cntGet c k * n
    if newcount > 0 then some (k, newcount) else none)

/-- `Counter.__and__`: swaps so that `self` is the operand with more keys,
then scans the smaller operand's elements filtered by membership in the
larger (`ifilter(self.__contains__, other)`), keeping positive minima. -/
def cntAnd (c1 c2 : Cnt) : Cnt :=
  let p := if c1.length < c2.length then (c2, c1) else (c1, c2)
  (cntKeys p.2).filterMap (fun k =>
    if (cntKeys p.1).contains k then
      let newcount := min (cntGet p.1 k) (cntGet p.2 k)
      if newcount > 0 then some (k, newcount) else none
    else none)

/-- `Counter.__sub__`: the body builds `result` exactly like `__add__` does
(with subtraction), but the source has no `return` statement, so the Python
call returns `None` — modelled as `none`. -/
def cntSub (c1 c2 : Cnt) : Option Cnt :=
  let _result := (cntKeyUnion c1 c2).filterMap (fun k =>
    let newcount := cntGet c1 k - cntGet c2 k
    if newcount > 0 then some (k, newcount) else none)
  none

/-! ## `iter_multi_items` and `MultiDict` (C2) -/

/-- A `MultiDict`'s contents: key ↦ stored value list (non-empty by
construction in the source). -/
abbrev MD := List (Nat × List Nat)

/-- `MultiDictMixin.iteritems(multi)`: with `multi=True` one pair per stored
value, with `multi=False` one pair per key carrying `values[0]`. -/
def mdIterItems (m : MD) (multi : Bool) : List (Nat × Nat) :=
  m.flatMap (fun e =>
    if multi then e.2.map (fun v => (e.1, v)) else [(e.1, e.2.headD 0)])

/-- The `MultiDict` branch of `iter_multi_items`: the source iterates
`mapping.iteritems(multi=False)`. -/
def iterMultiItemsMD (m : MD) : List (Nat × Nat) :=
  mdIterItems m false

/-- `MultiDictMixin.add(key, value)`: `setdefault(key, []).append(value)`. -/
def mdAdd (m : MD) (k v : Nat) : MD :=
  if (m.find? (fun e => e.1 == k)).isSome then
    m.map (fun e => if e.1 == k then (e.1, e.2 ++ [v]) else e)
  else m ++ [(k, [v])]

/-- `MultiDictMixin.update(source)` for a `MultiDict` source: `add` each pair
produced by `iter_multi_items(source)`. -/
def mdUpdateFromMD (m src : MD) : MD :=
  (iterMultiItemsMD src).foldl (fun acc p => mdAdd acc p.1 p.2) m

/-! ## `OrderedDict.__eq__` (C3)

An `OrderedDict`'s observable item sequence (insertion order) is modelled as
a list of pairs.
-/

/-- `OrderedDict.__eq__` against another `OrderedDict`:
`all(i1 == i2 for i1, i2 in izip(self.iteritems(), other.iteritems()))` —
`izip` truncates to the shorter item sequence. -/
def odEq (a b : List (Nat × Nat)) : Bool :=
  (a.zip b).all (fun p => p.1 == p.2)

/-! ## `LazyList` ordering comparisons (C6)

Elements are modelled as `Int`.  `izip_longest` comes from `brownie.itools`
(not under `src/`); it is the fill-padded zip of spec §4.3, yielding pairs
until both inputs are exhausted, the shorter side padded with the fill value
(here the `missing = object()` sentinel, modelled as `none`).
-/

/-- Modelled from the spec: fill-padded zip (§4.3) of `brownie.itools`,
specialised to two inputs with the `missing` sentinel (modelled `none`) as
fill value, as used by `LazyList.__lt__`. -/
def zipPad : List Int → List Int → List (Option Int × Option Int)
  | [], bs => bs.map (fun b => (none, some b))
  | a :: as, [] => (some a, none) :: zipPad as []
  | a :: as, b :: bs => (some a, some b) :: zipPad as bs

/-- Python 2 `<` between an element (an `int`) and the `missing` sentinel (a
plain `object()`): CPython 2 orders numbers before all non-numeric objects,
so `int < object()` is true and `object() < int` is false. -/
def pyLt : Option Int → Option Int → Bool
  | some a, some b => a < b
  | some _, none => true
  | none, some _ => false
  | none, none => false

/-- Python 2 `==` between an element and the `missing` sentinel: objects of
different types are unequal; two ints compare by value. -/
def pyEq : Option Int → Option Int → Bool
  | some a, some b => a == b
  | some _, none => false
  | none, some _ => false
  | none, none => true

/-- The `for a, b in izip_longest(...)` loop of `LazyList.__lt__`; when the
loop finishes without hitting a `return`, the Python function returns `None`
(modelled `none`). -/
def ltLoop : List (Option Int × Option Int) → Option Bool
  | [] => none
  | (a, b) :: rest =>
    if pyLt a b then some true
    else if pyEq a b then ltLoop rest
    else if a == none && !(b == none) then some true
    else some false

/-- `LazyList.__lt__` (truthiness of a `LazyList` is non-emptiness via
`__nonzero__`). -/
def lazyLt (self other : List Int) : Option Bool :=
  if self.isEmpty && !other.isEmpty then some true
  else if !self.isEmpty && other.isEmpty then some false
  else if self.isEmpty && other.isEmpty then some false
  else ltLoop (zipPad self other)

/-- `LazyList.__gt__`: `False` when both are empty, otherwise
`not self.__lt__(other)` — and Python's `not None` is `True`. -/
def lazyGt (self other : List Int) : Bool :=
  if self.isEmpty && other.isEmpty then false
  else
    match lazyLt self other with
    | none => true
    | some b => !b

/-! ## `namedtuple` generated `_make` (C10)

The generated class template's `_make(cls, iterable)` builds the tuple from
the whole input and raises `TypeError` only when the result holds more than
`field_count` values.  We model the generated tuple as a list and the record
type's declared arity as a parameter.
-/

/-- The generated `_make`: accepts the input sequence unless it is longer
than the declared field count. -/
def ntMake (fieldCount : Nat) (xs : List Int) : Except String (List Int) :=
  if xs.length > fieldCount then
    .error ("expected " ++ toString fieldCount ++ " arguments, got " ++
      toString xs.length)
  else .ok xs

/-! ## `LazyList` realization (C7)

State per `LazyList.__init__` over an iterator: the `exhausted` flag, the
materialized buffer `_collected_data`, and the unconsumed iterator tail
(modelled as the list of elements it will still yield).
-/

/-- The mutable state of a `LazyList`. -/
structure LL (α : Type) where
  exhausted : Bool
  collected : List α
  iterator : List α
  deriving Repr, DecidableEq

/-- The `for i in index_range` loop of `LazyList._exhaust`: run the loop body
`n` times (for `xrange(known_length, i + 1)`, `n = i + 1 - known_length`);
each step appends `self._iterator.next()` to the buffer, and a
`StopIteration` (empty tail) sets `exhausted` and breaks. -/
def pullN {α : Type} : Nat → List α → List α → Bool × List α × List α
  | 0, buf, it => (false, buf, it)
  | Nat.succ n, buf, it =>
    match it with
    | [] => (true, buf, [])
    | x :: xs => pullN n (buf ++ [x]) xs

/-- `LazyList._exhaust(i)` for a non-negative scalar index `i`: no-op when
already exhausted, otherwise loop over `xrange(known_length, i + 1)`. -/
def exhaustIdx {α : Type} (s : LL α) (i : Nat) : LL α :=
  if s.exhausted then s
  else
    let r := pullN (i + 1 - s.collected.length) s.collected s.iterator
    ⟨r.1, r.2.1, r.2.2⟩

/-- `LazyList.__getitem__(i)` for a non-negative scalar index: exhaust up to
`i`, then read the buffer (`none` models the `IndexError` Python's list
indexing raises when the buffer is still too short). -/
def llGetItem {α : Type} (s : LL α) (i : Nat) : LL α × Option α :=
  let s' := exhaustIdx s i
  (s', s'.collected.get? i)

/-- `LazyList(iterable)` over a (non-list, non-tuple, non-string) iterator:
not exhausted, empty buffer, the whole iterator pending. -/
def llFresh {α : Type} (elems : List α) : LL α := ⟨false, [], elems⟩

/-! ## `MultiDict.getlist` / `MultiDict.setlist` aliasing (C5)

Python lists are mutable heap objects; to express aliasing we model a heap
of value lists addressed by `Nat` references.  A `MultiDict`'s storage maps
each key to the reference of its value-list object.
-/

/-- A heap of Python list objects (cell index = object identity). -/
structure Heap where
  cells : List (List Nat)
  deriving Repr, DecidableEq

/-- Dereference a list object. -/
def Heap.read (h : Heap) (r : Nat) : List Nat := h.cells.getD r []

/-- Allocate a fresh list object, returning the new heap and its address. -/
def Heap.alloc (h : Heap) (vs : List Nat) : Heap × Nat :=
  (⟨h.cells ++ [vs]⟩, h.cells.length)

/-- Overwrite the cell at `r`. -/
def Heap.write (h : Heap) (r : Nat) (vs : List Nat) : Heap :=
  ⟨h.cells.set r vs⟩

/-- `list.append(v)` on the list object at `r` (in-place mutation). -/
def Heap.appendAt (h : Heap) (r : Nat) (v : Nat) : Heap :=
  h.write r (h.read r ++ [v])

/-- A `MultiDict`'s storage: key ↦ address of its value-list object. -/
abbrev MDH := List (Nat × Nat)

/-- Address of the value list stored for `k`, if any. -/
def mdhLookup (d : MDH) (k : Nat) : Option Nat :=
  (d.find? (fun e => e.1 == k)).map Prod.snd

/-- `dict.__setitem__` on the storage: replace the (unique) stored address,
or append a new entry. -/
def mdhSet : MDH → Nat → Nat → MDH
  | [], k, r => [(k, r)]
  | e :: rest, k, r =>
    if e.1 == k then (e.1, r) :: rest else e :: mdhSet rest k r

/-- `MultiDictMixin.getlist(key)`: returns the stored value-list object
itself (`super().__getitem__(key)` — no copy is taken); on a missing key the
literal `[]` creates a fresh empty list object. -/
def getlist (h : Heap) (d : MDH) (k : Nat) : Heap × Nat :=
  match mdhLookup d k with
  | some r => (h, r)
  | none => h.alloc []

/-- `MultiDictMixin.setlist(key, values)`: stores `list(values)` — a fresh
copy of the caller's list object — under `key`. -/
def setlist (h : Heap) (d : MDH) (k : Nat) (src : Nat) : Heap × MDH :=
  let hr := h.alloc (h.read src)
  (hr.1, mdhSet d k hr.2)

/-! ## `CombinedSequence` (C9)

Constituents are modelled as `List Int`; a view is the list of constituents
(`self.sequences`).
-/

/-- A combined sequence view's constituents. -/
abbrev CSeq := List (List Int)

/-- The non-negative branch of `CombinedSequence.at_index`: scan constituents
in order, accumulating `seen`, until `seen <= index < seen + len(sequence)`. -/
def atIndexPos : List (List Int) → Int → Int → Option (List Int × Int)
  | [], _, _ => none
  | seq :: rest, seen, index =>
    if seen ≤ index ∧ index < seen + seq.length then some (seq, index - seen)
    else atIndexPos rest (seen + seq.length) index

/-- The negative branch of `CombinedSequence.at_index`: scan constituents in
reverse, accumulating negative offsets, until
`seen >= index > seen - len(sequence)`. -/
def atIndexNeg : List (List Int) → Int → Int → Option (List Int × Int)
  | [], _, _ => none
  | seq :: rest, seen, index =>
    if index ≤ seen ∧ seen - seq.length < index then some (seq, index - seen)
    else atIndexNeg rest (seen - seq.length) index

/-- `CombinedSequence.at_index(index)`: `none` models the `IndexError` raised
when no constituent matches. -/
def atIndex (seqs : CSeq) (index : Int) : Option (List Int × Int) :=
  if 0 ≤ index then atIndexPos seqs 0 index
  else atIndexNeg seqs.reverse 0 index

/-- Python list indexing `sequence[i]` with negative-index support (`none`
models `IndexError`). -/
def pyGet (l : List Int) (i : Int) : Option Int :=
  if 0 ≤ i then l.get? i.toNat
  else
    let j := (l.length : Int) + i
    if 0 ≤ j then l.get? j.toNat else none

/-- `CombinedSequence.__getitem__` for a scalar index: resolve via
`at_index`, then index the constituent. -/
def csGetItem (seqs : CSeq) (index : Int) : Option Int :=
  match atIndex seqs index with
  | some p => pyGet p.1 p.2
  | none => none

/-- `CombinedSequence.__len__`: sum of constituent lengths. -/
def csLen (seqs : CSeq) : Nat := (seqs.map List.length).sum

/-- `CombinedSequence.__reversed__`:
`chain.from_iterable(reversed(map(reversed, self.sequences)))`. -/
def csRev (seqs : CSeq) : List Int :=
  ((seqs.map List.reverse).reverse).flatten

/-! ## Immutable mapping variants (C4)

`raise_immutable` is a module-level function wrapped in `@classmethod`.  Two
distinct ways of reaching it occur in the source:

* as a class attribute (`__setitem__ = ... = raise_immutable` in
  `ImmutableDictMixin`, `move_to_end = raise_immutable` in
  `ImmutableOrderedDict`): attribute access runs the classmethod descriptor,
  binding `cls` to the concrete class, so the call raises
  `TypeError("'TypeName' objects are immutable")` (`%r` quotes the name);
* as a direct call `raise_immutable(self)` inside the bodies of
  `ImmutableMultiDictMixin.add/setlist/setlistdefault/poplist/popitemlist`:
  the global name is the raw `classmethod` object, which is not callable in
  Python 2, so the call raises `TypeError("'classmethod' object is not
  callable")` and never reaches the immutable message.

We embed the class hierarchy as an MRO-based method table: each mixin
contributes bindings from operation to behaviour, and a concrete type
resolves an operation through its MRO, first hit wins.
-/

/-- One Python exception, by type and message. -/
inductive PyExc where
  | typeError (msg : String)
  deriving Repr, DecidableEq

/-- The message produced by `raise_immutable` when reached through the
classmethod descriptor: `'%r objects are immutable' % cls.__name__`. -/
def immutableMsg (clsName : String) : PyExc :=
  .typeError ("\x27" ++ clsName ++ "\x27 objects are immutable")

/-- The failure produced by calling the raw `classmethod` object
`raise_immutable` directly, as the `ImmutableMultiDictMixin` method bodies
do. -/
def classmethodNotCallable : PyExc :=
  .typeError "\x27classmethod\x27 object is not callable"

/-- `CombinedDictMixin.fromkeys` raises unconditionally; `%r` is applied to
`cls.__class__.__name__`, i.e. the metaclass name (`AbstractClassMeta`), not
the concrete type. -/
def combinedFromkeysExc : PyExc :=
  .typeError
    "cannot create \x27AbstractClassMeta\x27 instances with .fromkeys()"

/-- The mutating operations named by the claim, plus `fromkeys`. -/
inductive MutOp where
  | setitem | delitem | setdefault | update | pop | popitem | clear
  | moveToEnd
  | add | setlist | setlistdefault | poplist | popitemlist
  | fromkeys
  deriving Repr, DecidableEq

/-- What a resolved method does when invoked. -/
inductive OpBehavior where
  /-- raises via the classmethod descriptor, naming the concrete type -/
  | raisesImmutable
  /-- the body calls the raw classmethod object `raise_immutable(self)` -/
  | callsClassmethodDirectly
  /-- `ImmutableDictMixin.fromkeys`: builds `cls(zip(keys, repeat(value)))` -/
  | fromkeysAllowed
  /-- `CombinedDictMixin.fromkeys`: raises the construction failure -/
  | fromkeysRejected
  deriving Repr, DecidableEq

/-- The classes (mixins and bases) that contribute method bindings. -/
inductive Cls where
  | combinedDictMixin | immutableMultiDictMixin | immutableDictMixin
  | immutableOrderedDict | multiDictMixin | orderedDict | dictBase
  deriving Repr, DecidableEq

/-- The method bindings each class defines, transcribed from the source
(`none` = the class does not define this operation). -/
def clsMethod : Cls → MutOp → Option OpBehavior
  | .immutableDictMixin, op =>
    -- `__setitem__ = __delitem__ = setdefault = update = pop = popitem =
    --  clear = raise_immutable`, plus `fromkeys`.
    match op with
    | .setitem | .delitem | .setdefault | .update | .pop | .popitem
    | .clear => some .raisesImmutable
    | .fromkeys => some .fromkeysAllowed
    | _ => none
  | .immutableMultiDictMixin, op =>
    -- five overridden multi-value mutators, each with body
    -- `raise_immutable(self)`.
    match op with
    | .add | .setlist | .setlistdefault | .poplist | .popitemlist =>
      some .callsClassmethodDirectly
    | _ => none
  | .combinedDictMixin, op =>
    match op with
    | .fromkeys => some .fromkeysRejected
    | _ => none
  | .immutableOrderedDict, op =>
    -- `move_to_end = raise_immutable`.
    match op with
    | .moveToEnd => some .raisesImmutable
    | _ => none
  | _, _ => none

/-- The concrete immutable variants the claim quantifies over. -/
inductive ImmType where
  | iDict | iMultiDict | iOrderedDict | iOrderedMultiDict
  | cDict | cMultiDict
  deriving Repr, DecidableEq

/-- `type(self).__name__`. -/
def ImmType.clsName : ImmType → String
  | .iDict => "ImmutableDict"
  | .iMultiDict => "ImmutableMultiDict"
  | .iOrderedDict => "ImmutableOrderedDict"
  | .iOrderedMultiDict => "ImmutableOrderedMultiDict"
  | .cDict => "CombinedDict"
  | .cMultiDict => "CombinedMultiDict"

/-- The method-resolution order of each concrete type, restricted to the
classes that can define the operations above (transcribed from the class
headers: e.g. `CombinedMultiDict(CombinedDictMixin, ImmutableMultiDictMixin,
dict)` linearizes to combined, immutable-multi, immutable, multi, dict). -/
def ImmType.mro : ImmType → List Cls
  | .iDict => [.immutableDictMixin, .dictBase]
  | .iMultiDict =>
    [.immutableMultiDictMixin, .immutableDictMixin, .multiDictMixin,
     .dictBase]
  | .iOrderedDict => [.immutableOrderedDict, .immutableDictMixin,
     .orderedDict, .dictBase]
  | .iOrderedMultiDict =>
    [.immutableMultiDictMixin, .immutableOrderedDict, .immutableDictMixin,
     .multiDictMixin, .orderedDict, .dictBase]
  | .cDict => [.combinedDictMixin, .immutableDictMixin, .dictBase]
  | .cMultiDict =>
    [.combinedDictMixin, .immutableMultiDictMixin, .immutableDictMixin,
     .multiDictMixin, .dictBase]

/-- Attribute lookup along the MRO: first class defining the operation
wins. -/
def mroResolve : List Cls → MutOp → Option OpBehavior
  | [], _ => none
  | c :: rest, op =>
    match clsMethod c op with
    | some b => some b
    | none => mroResolve rest op

/-- The observable outcome of invoking an operation on an instance of an
immutable variant. -/
inductive OpResult where
  /-- the operation raises this exception -/
  | raises (e : PyExc)
  /-- the operation is available and does not raise the immutable failure -/
  | allowed
  /-- the type does not define the operation at all -/
  | absent
  deriving Repr, DecidableEq

/-- Invoke `op` on an instance of `t`: resolve through the MRO and interpret
the found behaviour.  The descriptor-reached `raise_immutable` names
`type(self)` (classmethods bind to the class they are looked up through). -/
def invokeOp (t : ImmType) (op : MutOp) : OpResult :=
  match mroResolve t.mro op with
  | some .raisesImmutable => .raises (immutableMsg t.clsName)
  | some .callsClassmethodDirectly => .raises classmethodNotCallable
  | some .fromkeysAllowed => .allowed
  | some .fromkeysRejected => .raises combinedFromkeysExc
  | none => .absent

/-- The claim side (amended – see the theorem): the outcome each variant and
operation is specified to produce.  The dict-level mutators always raise the
immutable failure naming the concrete type; `move_to_end` does so on the
ordered variants; the five multi-value mutators on the multi-value variants
raise the classmethod-not-callable failure instead; `fromkeys` is available
on the four immutable variants and rejected by the two combined views. -/
def specifiedOutcome (t : ImmType) (op : MutOp) : OpResult :=
  match op with
  | .setitem | .delitem | .setdefault | .update | .pop | .popitem
  | .clear => .raises (immutableMsg t.clsName)
  | .moveToEnd =>
    match t with
    | .iOrderedDict | .iOrderedMultiDict => .raises (immutableMsg t.clsName)
    | _ => .absent
  | .add | .setlist | .setlistdefault | .poplist | .popitemlist =>
    match t with
    | .iMultiDict | .iOrderedMultiDict | .cMultiDict =>
      .raises classmethodNotCallable
    | _ => .absent
  | .fromkeys =>
    match t with
    | .cDict | .cMultiDict => .raises combinedFromkeysExc
    | _ => .allowed

/-! ## `OrderedDict` link structure (C8)

`OrderedDict` keeps a hash association (`dict` payload), a map from key to
link node (`self._map`), and a circular doubly linked list of `_Link` nodes
anchored at `self._root`.  Nodes are heap objects; we model the heap as a
list of links addressed by index (allocation appends; Python's garbage
collection of unreachable nodes is unobservable, so freed nodes simply stay
in the heap unreferenced).  Keys and values are `Nat`.
-/

/-- One `_Link` node (`key`, `prev`, `next`); the root's key is `None`. -/
structure Link where
  key : Option Nat
  prev : Nat
  next : Nat
  deriving Repr, DecidableEq

/-- Dereference a node. -/
def gl (h : List Link) (i : Nat) : Link := h.getD i ⟨none, 0, 0⟩

/-- `node.next = t` (in-place attribute write). -/
def setNext (h : List Link) (i t : Nat) : List Link :=
  h.set i { gl h i with next := t }

/-- `node.prev = t` (in-place attribute write). -/
def setPrev (h : List Link) (i t : Nat) : List Link :=
  h.set i { gl h i with prev := t }

/-- The state of an `OrderedDict`: node heap, root-node address, `_map`
(key ↦ node address) and the underlying `dict` payload (key ↦ value). -/
structure OD where
  heap : List Link
  root : Nat
  map : List (Nat × Nat)
  d : List (Nat × Nat)
  deriving Repr, DecidableEq

/-- `__init__` without arguments: a fresh root pointing at itself. -/
def OD.empty : OD := ⟨[⟨none, 0, 0⟩], 0, [], []⟩

/-- `key in dict` on an association list. -/
def dcontains (d : List (Nat × Nat)) (k : Nat) : Bool :=
  (d.find? (fun e => e.1 == k)).isSome

/-- `dict[key]` lookup. -/
def dlookup (d : List (Nat × Nat)) (k : Nat) : Option Nat :=
  (d.find? (fun e => e.1 == k)).map Prod.snd

/-- `dict[key] = v`: replace the (unique) bound value or append a new
entry. -/
def dset : List (Nat × Nat) → Nat → Nat → List (Nat × Nat)
  | [], k, v => [(k, v)]
  | e :: rest, k, v =>
    if e.1 == k then (e.1, v) :: rest else e :: dset rest k v

/-- `del dict[key]` / `map.pop(key)`: drop the entry. -/
def derase (d : List (Nat × Nat)) (k : Nat) : List (Nat × Nat) :=
  d.filter (fun e => !(e.1 == k))

/-- `OrderedDict.__setitem__`: when the key is new, allocate a link between
`last = root.prev` and the root (`last.next = root.prev = map[key] = link`),
then write the payload dict. -/
def OD.setitem (s : OD) (k v : Nat) : OD :=
  let s1 :=
    if dcontains s.d k then s
    else
      let last := (gl s.heap s.root).prev
      let idx := s.heap.length
      let h1 := s.heap ++ [⟨some k, last, s.root⟩]
      let h2 := setNext h1 last idx
      let h3 := setPrev h2 s.root idx
      ⟨h3, s.root, s.map ++ [(k, idx)], s.d⟩
  { s1 with d := dset s1.d k v }

/-- `OrderedDict.__delitem__`: `none` models the `KeyError` from
`dict.__delitem__` on a missing key; otherwise pop the link from `_map` and
splice it out (`prev.next, next.prev = link.next, link.prev`). -/
def OD.delitem (s : OD) (k : Nat) : Option OD :=
  if dcontains s.d k then
    let d1 := derase s.d k
    let idx := (dlookup s.map k).getD 0
    let lnk := gl s.heap idx
    let m1 := derase s.map k
    let h1 := setNext s.heap lnk.prev lnk.next
    let h2 := setPrev h1 lnk.next lnk.prev
    some ⟨h2, s.root, m1, d1⟩
  else none

/-- `OrderedDict.move_to_end(key, last)`: `none` models the `KeyError` on a
missing key; otherwise unlink the node, then re-link it adjacent to the root
on the requested side. -/
def OD.moveToEnd (s : OD) (k : Nat) (last : Bool) : Option OD :=
  if dcontains s.d k then
    let idx := (dlookup s.map k).getD 0
    let lnk := gl s.heap idx
    let h2 := setPrev (setNext s.heap lnk.prev lnk.next) lnk.next lnk.prev
    if last then
      let replacing := (gl h2 s.root).prev
      let h3 := setNext h2 replacing idx
      let h4 := setPrev h3 s.root idx
      let h5 := setNext (setPrev h4 idx replacing) idx s.root
      some ⟨h5, s.root, s.map, s.d⟩
    else
      let replacing := (gl h2 s.root).next
      let h3 := setNext h2 s.root idx
      let h4 := setPrev h3 replacing idx
      let h5 := setNext (setPrev h4 idx s.root) idx replacing
      some ⟨h5, s.root, s.map, s.d⟩
  else none

/-- `OrderedDict.clear`: allocate a fresh self-referencing root, clear
`_map` and the payload dict (the old nodes become garbage). -/
def OD.clear (s : OD) : OD :=
  let newRoot := s.heap.length
  ⟨s.heap ++ [⟨none, newRoot, newRoot⟩], newRoot, [], []⟩

/-- `OrderedDict.pop(key)` without a default: read the payload value, then
`del self[key]`; `none` models the `KeyError` on a missing key. -/
def OD.pop (s : OD) (k : Nat) : Option (OD × Nat) :=
  match dlookup s.d k with
  | none => none
  | some v =>
    match s.delitem k with
    | some s2 => some (s2, v)
    | none => none

/-- `OrderedDict.setdefault(key, default)`: insert at the end when absent;
returns the (new) state and the bound value. -/
def OD.setdefault (s : OD) (k default : Nat) : OD × Nat :=
  if dcontains s.d k then (s, (dlookup s.d k).getD 0)
  else (s.setitem k default, default)

/-- `OrderedDict.update` from an iterable of pairs: `__setitem__` each. -/
def OD.update (s : OD) (items : List (Nat × Nat)) : OD :=
  items.foldl (fun a p => a.setitem p.1 p.2) s

/-- `OrderedDict.fromkeys(iterable, value)`:
`cls(izip(iterable, repeat(value)))`, i.e. update an empty instance. -/
def OD.fromkeys (ks : List Nat) (v : Nat) : OD :=
  OD.update OD.empty (ks.map (fun k => (k, v)))

/-- The `while curr is not root` loop shared by `__iter__` (follow `next`)
and `__reversed__` (follow `prev`); `sel` selects the pointer followed.
The fuel (always the heap size, an upper bound on the cycle length) only
makes the recursion structural. -/
def walk (h : List Link) (root : Nat) (sel : Link → Nat) :
    Nat → Nat → List Nat
  | 0, _ => []
  | Nat.succ fuel, cur =>
    if cur = root then []
    else (gl h cur).key.getD 0 :: walk h root sel fuel (sel (gl h cur))

/-- `list(OrderedDict.__iter__)`: forward key iteration. -/
def OD.iterKeys (s : OD) : List Nat :=
  walk s.heap s.root Link.next s.heap.length (gl s.heap s.root).next

/-- `list(OrderedDict.__reversed__)`: reverse key iteration. -/
def OD.iterKeysRev (s : OD) : List Nat :=
  walk s.heap s.root Link.prev s.heap.length (gl s.heap s.root).prev

/-- `OrderedDict.popitem(last)`: `none` models the `KeyError('dict is
empty')`; otherwise pop the first key yielded by `__reversed__` (or
`__iter__`). -/
def OD.popitem (s : OD) (last : Bool) : Option ((Nat × Nat) × OD) :=
  if s.d.isEmpty then none
  else
    match (if last then s.iterKeysRev else s.iterKeys).head? with
    | none => none
    | some k =>
      match s.pop k with
      | some r => some ((k, r.2), r.1)
      | none => none

/-- The forward link relation: `x.next` points at `y`. -/
def NextRel (h : List Link) (x y : Nat) : Prop := (gl h x).next = y

/-- The backward link relation: `y.prev` points back at `x`. -/
def PrevRel (h : List Link) (x y : Nat) : Prop := (gl h y).prev = x

instance (h : List Link) : DecidableRel (NextRel h) :=
  fun x y => inferInstanceAs (Decidable ((gl h x).next = y))

instance (h : List Link) : DecidableRel (PrevRel h) :=
  fun x y => inferInstanceAs (Decidable ((gl h y).prev = x))

/-- The link-structure invariant, witnessed by the node addresses `ns` of
the live keys in link order: all nodes (and the root) live in the heap, the
root is not a key node and its `key` is `None`, the `next` pointers run
root → ns → root and the `prev` pointers match them backwards, `_map` binds
exactly the nodes `ns` (one node per live key, matching keys), keys are not
duplicated, and the payload dict holds exactly the mapped keys. -/
def WFw (s : OD) (ns : List Nat) : Prop :=
  s.root < s.heap.length
  ∧ (∀ n ∈ ns, n < s.heap.length)
  ∧ s.root ∉ ns
  ∧ ns.Nodup
  ∧ (gl s.heap s.root).key = none
  ∧ List.Chain' (NextRel s.heap) (s.root :: ns ++ [s.root])
  ∧ List.Chain' (PrevRel s.heap) (s.root :: ns ++ [s.root])
  ∧ (s.map.map Prod.snd).Perm ns
  ∧ (∀ p ∈ s.map, (gl s.heap p.2).key = some p.1)
  ∧ (s.map.map Prod.fst).Nodup
  ∧ s.d.map Prod.fst = s.map.map Prod.fst

/-- The link-structure invariant of an `OrderedDict`. -/
def WF (s : OD) : Prop := ∃ ns, WFw s ns

/-- What C7 asserts of `LazyList` realization at a non-negative in-range
index: the buffer materializes exactly items `0..i`, the read succeeds with
the source's item `i`, and the instance is not exhausted, the rest of the
iterator being left unconsumed. -/
def lazyGetConcl {α : Type} (elems : List α) (i : Nat) : Prop :=
  (exhaustIdx (llFresh elems) i).collected = elems.take (i + 1)
  ∧ (exhaustIdx (llFresh elems) i).collected.length = i + 1
  ∧ (exhaustIdx (llFresh elems) i).exhausted = false
  ∧ (exhaustIdx (llFresh elems) i).iterator = elems.drop (i + 1)
  ∧ (llGetItem (llFresh elems) i).2 = elems.get? i
  ∧ (elems.get? i).isSome = true

/-- What the amended C5 asserts: `getlist` hands out the stored list object
itself (same heap, stored address, so appending through it rewrites the
stored cell), while `setlist` stores a fresh copy of the caller's list, so
mutating the caller's list afterwards leaves the stored list unchanged. -/
def getlistSetlistConcl (h : Heap) (d : MDH) (k r src v : Nat) : Prop :=
  getlist h d k = (h, r)
  ∧ (Heap.appendAt h r v).read r = h.read r ++ [v]
  ∧ mdhLookup (setlist h d k src).2 k = some h.cells.length
  ∧ h.cells.length ≠ src
  ∧ (setlist h d k src).1.read h.cells.length = h.read src
  ∧ ((setlist h d k src).1.appendAt src v).read h.cells.length = h.read src

/-- What C8 asserts of a well-formed `OrderedDict`: every operation
preserves the link invariant, reverse iteration is the reverse of forward
iteration, forward iteration visits each live key exactly once, the root
carries no key, and insertion/deletion/move keep the oldest-to-newest
discipline (a new key appears at the end, a deletion removes exactly its
key, `move_to_end` moves exactly its key to the requested side). -/
def linkInvariantConcl (s : OD) (k v : Nat) : Prop :=
  WF (s.setitem k v)
  ∧ (∀ s2, s.delitem k = some s2 → WF s2)
  ∧ (∀ r, s.pop k = some r → WF r.1)
  ∧ (∀ b r, s.popitem b = some r → WF r.2)
  ∧ WF (s.setdefault k v).1
  ∧ (∀ items, WF (s.update items))
  ∧ WF s.clear
  ∧ (∀ b s2, s.moveToEnd k b = some s2 → WF s2)
  ∧ (∀ ks w, WF (OD.fromkeys ks w))
  ∧ s.iterKeysRev = s.iterKeys.reverse
  ∧ s.iterKeys.Nodup
  ∧ s.iterKeys.Perm (s.map.map Prod.fst)
  ∧ (gl s.heap s.root).key = none
  ∧ (dcontains s.d k = false → (s.setitem k v).iterKeys = s.iterKeys ++ [k])
  ∧ (dcontains s.d k = true → (s.setitem k v).iterKeys = s.iterKeys)
  ∧ (∀ s2, s.delitem k = some s2 →
      ∃ as bs, s.iterKeys = as ++ k :: bs ∧ s2.iterKeys = as ++ bs)
  ∧ (∀ s2, s.moveToEnd k true = some s2 →
      ∃ as bs, s.iterKeys = as ++ k :: bs ∧ s2.iterKeys = as ++ bs ++ [k])
  ∧ (∀ s2, s.moveToEnd k false = some s2 →
      ∃ as bs, s.iterKeys = as ++ k :: bs ∧ s2.iterKeys = k :: (as ++ bs))

/-- A small concrete `OrderedDict` (keys 1 and 2, in that order) used to
instantiate hypothesis-carrying theorems. -/
def demoOD : OD := (OD.empty.setitem 1 10).setitem 2 20

/-! ## Theorems -/

/-- C1: the claim says every binary algebraic operation on `Counter`,
including the difference `c1 - c2`, returns a new `Counter` of the positive
result counts.  The source's `__sub__` computes that counter but has no
`return` statement, so every difference evaluates to `None` — e.g.
`Counter({0: 2}) - Counter({0: 1})` is `None`, not `Counter({0: 1})`. -/
theorem counter_sub_returns_none (c1 c2 : Cnt) : cntSub c1 c2 = none := rfl

/-- C2: the claim says `iter_multi_items` over a `MultiDict` yields one pair
per stored value.  The source's `MultiDict` branch calls
`iteritems(multi=False)`, which yields one pair per key carrying only the
first value: over `MultiDict({1: [2, 3]})` it yields `(1, 2)` only, and
consequently `update` from that `MultiDict` appends only `[2]`. -/
theorem iter_multi_items_first_value_only :
    iterMultiItemsMD [(1, [2, 3])] = [(1, 2)]
    ∧ mdIterItems [(1, [2, 3])] true = [(1, 2), (1, 3)]
    ∧ mdUpdateFromMD [] [(1, [2, 3])] = [(1, [2])] := by decide

/-- C3: the claim says two `OrderedDict`s whose item sequences differ — in
particular a strict prefix — compare unequal.  `__eq__` zips the two item
iterators, truncating to the shorter, so `OrderedDict([(1, 1)])` compares
equal to `OrderedDict([(1, 1), (2, 2)])`. -/
theorem ordered_dict_eq_prefix_true :
    odEq [(1, 1)] [(1, 1), (2, 2)] = true
    ∧ ([(1, 1)] : List (Nat × Nat)) ≠ [(1, 1), (2, 2)] := by decide

/-- C4 (counterexample): two parts of the claim fail on the code.  The
combined views do not keep `fromkeys` available — `CombinedDictMixin`
rejects it — and the multi-value mutators, e.g. `add` on
`ImmutableMultiDict`, raise a `TypeError` that does not carry the immutable
message naming the concrete type (the body calls the raw `classmethod`
object). -/
theorem immutable_claim_counterexample :
    invokeOp .cMultiDict .fromkeys = .raises combinedFromkeysExc
    ∧ invokeOp .iMultiDict .add = .raises classmethodNotCallable
    ∧ classmethodNotCallable ≠ immutableMsg "ImmutableMultiDict" := by
  refine ⟨rfl, rfl, ?_⟩
  decide

/-- C4 (amended): on every immutable variant the seven dict-level mutating
operations raise the Immutable failure naming the concrete type, and so does
`move_to_end` on the ordered variants; the five multi-value mutators on the
multi-value variants raise the classmethod-not-callable `TypeError` instead;
`fromkeys` stays available on the four immutable variants but is rejected by
the two combined views. -/
theorem immutable_mutation_behavior (t : ImmType) (op : MutOp) :
    invokeOp t op = specifiedOutcome t op := by
  cases t <;> cases op <;> rfl

/-- C5 (counterexample): the claim says `getlist` returns a copy of the
stored list.  It returns the stored list object itself: with one stored
list `[5]` under key 1, appending 6 to the list `getlist` returned changes
the mapping's stored list to `[5, 6]`. -/
theorem getlist_alias_counterexample :
    (let h0 : Heap := ⟨[[5]]⟩
     let d : MDH := [(1, 0)]
     let g := getlist h0 d 1
     (g.1.appendAt g.2 6).read ((mdhLookup d 1).getD 99) = [5, 6]
     ∧ Heap.read h0 ((mdhLookup d 1).getD 99) = [5]) := by decide

/-- Helper: reading the freshly allocated cell. -/
theorem Heap.read_alloc_new (h : Heap) (vs : List Nat) :
    (h.alloc vs).1.read h.cells.length = vs := by
  simp [Heap.alloc, Heap.read, List.getD]

/-- Helper: allocation does not disturb existing cells. -/
theorem Heap.read_alloc_old (h : Heap) (vs : List Nat) (r : Nat)
    (hr : r < h.cells.length) : (h.alloc vs).1.read r = h.read r := by
  simp [Heap.alloc, Heap.read, List.getD, List.getElem?_append_left hr]

/-- Helper: reading back a written cell. -/
theorem Heap.read_write_self (h : Heap) (r : Nat) (vs : List Nat)
    (hr : r < h.cells.length) : (h.write r vs).read r = vs := by
  simp [Heap.write, Heap.read, List.getD, List.getElem?_set_self, hr]

/-- Helper: writes do not disturb other cells. -/
theorem Heap.read_write_other (h : Heap) (r r' : Nat) (vs : List Nat)
    (hne : r' ≠ r) : (h.write r vs).read r' = h.read r' := by
  simp [Heap.write, Heap.read, List.getD, List.getElem?_set_ne (Ne.symm hne)]

/-- Helper: `mdhSet` binds the key to the given address. -/
theorem mdhLookup_mdhSet (d : MDH) (k r : Nat) :
    mdhLookup (mdhSet d k r) k = some r := by
  induction d with
  | nil => simp [mdhSet, mdhLookup]
  | cons e rest ih =>
    by_cases he : e.1 = k
    · simp [mdhSet, mdhLookup, he]
    · have he2 : (e.1 == k) = false := by simp [he]
      simpa [mdhSet, mdhLookup, he2] using ih

/-- C5 (amended): `getlist` hands out the stored list object itself —
appending through the returned reference rewrites the stored cell — while
`setlist` copies: the stored address is fresh, holds a copy of the caller's
list, and later mutation of the caller's list leaves the stored list
unchanged. -/
theorem getlist_alias_setlist_copies (h : Heap) (d : MDH) (k r src v : Nat)
    (hk : mdhLookup d k = some r) (hr : r < h.cells.length)
    (hsrc : src < h.cells.length) : getlistSetlistConcl h d k r src v := by
  have hfresh : h.cells.length ≠ src := by omega
  refine ⟨by simp [getlist, hk], ?_, ?_, hfresh, ?_, ?_⟩
  · simp [getlist, hk, Heap.appendAt, Heap.read_write_self h r _ hr]
  · exact mdhLookup_mdhSet d k h.cells.length
  · exact Heap.read_alloc_new h (h.read src)
  · rw [show (setlist h d k src).1 = (h.alloc (h.read src)).1 from rfl,
      Heap.appendAt, Heap.read_write_other _ src _ _ hfresh]
    exact Heap.read_alloc_new h (h.read src)

/-- C5 witness. -/
theorem getlist_alias_setlist_copies_witness :
    (mdhLookup [(1, 0)] 1 = some 0 ∧ 0 < 2 ∧ 1 < 2)
    ∧ getlistSetlistConcl ⟨[[5], [7]]⟩ [(1, 0)] 1 0 1 9 :=
  ⟨by decide,
   getlist_alias_setlist_copies ⟨[[5], [7]]⟩ [(1, 0)] 1 0 1 9 (by decide)
     (by decide) (by decide)⟩

/-- C6: the claim says that for identical content ending together neither
`<` nor `>` holds.  For two equal non-empty lists `__lt__` falls off its
loop and returns `None`, and `__gt__` computes `not None`, i.e. `True`:
`LazyList([1]) > LazyList([1])` is `True`. -/
theorem lazy_list_gt_equal_true :
    lazyGt [1] [1] = true ∧ lazyLt [1] [1] = none
    ∧ lazyLt [1, 2] [1] = some true := by decide

/-- Helper: taking a longer prefix does not change an earlier lookup. -/
theorem get?_take_lt {α : Type} :
    ∀ (l : List α) (n m : Nat), m < n → (l.take n).get? m = l.get? m := by
  intro l
  induction l with
  | nil => intro n m _; simp
  | cons x xs ih =>
    intro n m hmn
    match n, m with
    | Nat.succ n', 0 => simp
    | Nat.succ n', Nat.succ m' =>
      simpa using ih n' m' (by omega)

/-- Helper: the realization loop pulls exactly `n` items when the iterator
holds at least `n`. -/
theorem pullN_spec {α : Type} :
    ∀ (n : Nat) (buf it : List α), n ≤ it.length →
      pullN n buf it = (false, buf ++ it.take n, it.drop n) := by
  intro n
  induction n with
  | zero => intro buf it _; simp [pullN]
  | succ m ih =>
    intro buf it hlen
    match it with
    | [] => simp at hlen
    | x :: xs =>
      simp only [pullN]
      rw [ih (buf ++ [x]) xs (by simpa using hlen)]
      simp

/-- C7: a `LazyList` over an iterator with more than `i` elements remaining:
reading index `i` materializes exactly items `0..i` (known length `i + 1`),
returns the source's item `i` without raising, leaves `exhausted` false and
the rest of the iterator unconsumed. -/
theorem lazy_list_getitem_minimal {α : Type} (elems : List α) (i : Nat)
    (h : i < elems.length) : lazyGetConcl elems i := by
  have hle : i + 1 ≤ elems.length := h
  have hex : exhaustIdx (llFresh elems) i =
      ⟨false, elems.take (i + 1), elems.drop (i + 1)⟩ := by
    simp only [exhaustIdx, llFresh, Bool.false_eq_true, if_neg,
      List.length_nil, Nat.sub_zero]
    rw [pullN_spec (i + 1) [] elems hle]
    simp
  refine ⟨by rw [hex], ?_, by rw [hex], by rw [hex], ?_, ?_⟩
  · rw [hex]; simpa using hle
  · simp only [llGetItem, hex]
    exact get?_take_lt elems (i + 1) i (by omega)
  · rw [List.get?_eq_get h]; rfl

/-- C7 witness: index 5 of a length-10 counting source. -/
theorem lazy_list_getitem_minimal_witness :
    5 < (List.range 10).length ∧ lazyGetConcl (List.range 10) 5 :=
  ⟨by decide, lazy_list_getitem_minimal (List.range 10) 5 (by decide)⟩

/-- C9: the claim says every in-range negative index resolves to the
correct constituent and offset.  The negative scan window is
`seen >= index > seen - len` — open at the boundary — so over
`[[1,2,3],[4,5,6]]` the in-range index `-3` resolves to constituent
`[1,2,3]` at offset 0 and yields 1 instead of the flattened element 4, and
the in-range index `-6` matches no constituent and raises `IndexError`.
The claim's own examples (`view[3]`, `view[-1]`, `len`, reversal) do hold. -/
theorem combined_sequence_negative_boundary :
    csGetItem [[1, 2, 3], [4, 5, 6]] 3 = some 4
    ∧ csGetItem [[1, 2, 3], [4, 5, 6]] (-1) = some 6
    ∧ csLen [[1, 2, 3], [4, 5, 6]] = 6
    ∧ csRev [[1, 2, 3], [4, 5, 6]] = [6, 5, 4, 3, 2, 1]
    ∧ csGetItem [[1, 2, 3], [4, 5, 6]] (-3) = some 1
    ∧ ([1, 2, 3, 4, 5, 6] : List Int).get? (6 - 3) = some 4
    ∧ atIndex [[1, 2, 3], [4, 5, 6]] (-6) = none
    ∧ atIndex [[1, 2, 3], [4, 5, 6]] (-3) = some ([1, 2, 3], 0) := by
  decide

/-- C10: the generated `_make` accepts any sequence of at most the declared
number of fields — fewer silently yields a shorter record — and fails with
a `TypeError` only when given more. -/
theorem namedtuple_make_arity (k : Nat) (xs : List Int) :
    (xs.length ≤ k → ntMake k xs = .ok xs)
    ∧ (k < xs.length → ntMake k xs =
        .error ("expected " ++ toString k ++ " arguments, got " ++
          toString xs.length)) := by
  constructor <;> intro h
  · simp only [ntMake, if_neg (by omega : ¬ xs.length > k)]
  · simp only [ntMake, if_pos (by omega : xs.length > k)]

/-- C10 witness: arity 3 accepts two values as-is and rejects four. -/
theorem namedtuple_make_arity_witness :
    (([5, 6] : List Int).length ≤ 3 ∧ ntMake 3 [5, 6] = .ok [5, 6])
    ∧ (3 < ([5, 6, 7, 8] : List Int).length ∧ ntMake 3 [5, 6, 7, 8] =
        .error ("expected " ++ toString 3 ++ " arguments, got " ++
          toString ([5, 6, 7, 8] : List Int).length)) :=
  ⟨⟨by decide, (namedtuple_make_arity 3 [5, 6]).1 (by decide)⟩,
   ⟨by decide, (namedtuple_make_arity 3 [5, 6, 7, 8]).2 (by decide)⟩⟩

/-! ### Link-heap lemmas (C8) -/

theorem gl_set (h : List Link) (i j : Nat) (x : Link) (hi : i < h.length) :
    gl (h.set i x) j = if j = i then x else gl h j := by
  by_cases hji : j = i
  · subst hji; simp [gl, List.getD, List.getElem?_set_self, hi]
  · simp [gl, List.getD, List.getElem?_set_ne (Ne.symm hji), hji]

theorem gl_append_lt (h : List Link) (x : Link) (j : Nat)
    (hj : j < h.length) : gl (h ++ [x]) j = gl h j := by
  simp [gl, List.getD, List.getElem?_append_left hj]

theorem gl_append_eq (h : List Link) (x : Link) :
    gl (h ++ [x]) h.length = x := by
  simp [gl, List.getD]

theorem length_setNext (h : List Link) (i t : Nat) :
    (setNext h i t).length = h.length := by simp [setNext]

theorem length_setPrev (h : List Link) (i t : Nat) :
    (setPrev h i t).length = h.length := by simp [setPrev]

theorem next_setPrev (h : List Link) (i t j : Nat) :
    (gl (setPrev h i t) j).next = (gl h j).next := by
  by_cases hi : i < h.length
  · rw [setPrev, gl_set h i j _ hi]
    by_cases hji : j = i <;> simp [hji]
  · rw [setPrev, List.set_eq_of_length_le (by omega)]

theorem key_setPrev (h : List Link) (i t j : Nat) :
    (gl (setPrev h i t) j).key = (gl h j).key := by
  by_cases hi : i < h.length
  · rw [setPrev, gl_set h i j _ hi]
    by_cases hji : j = i <;> simp [hji]
  · rw [setPrev, List.set_eq_of_length_le (by omega)]

theorem prev_setNext (h : List Link) (i t j : Nat) :
    (gl (setNext h i t) j).prev = (gl h j).prev := by
  by_cases hi : i < h.length
  · rw [setNext, gl_set h i j _ hi]
    by_cases hji : j = i <;> simp [hji]
  · rw [setNext, List.set_eq_of_length_le (by omega)]

theorem key_setNext (h : List Link) (i t j : Nat) :
    (gl (setNext h i t) j).key = (gl h j).key := by
  by_cases hi : i < h.length
  · rw [setNext, gl_set h i j _ hi]
    by_cases hji : j = i <;> simp [hji]
  · rw [setNext, List.set_eq_of_length_le (by omega)]

theorem next_setNext (h : List Link) (i t j : Nat) (hi : i < h.length) :
    (gl (setNext h i t) j).next = if j = i then t else (gl h j).next := by
  rw [setNext, gl_set h i j _ hi]
  by_cases hji : j = i <;> simp [hji]

theorem prev_setPrev (h : List Link) (i t j : Nat) (hi : i < h.length) :
    (gl (setPrev h i t) j).prev = if j = i then t else (gl h j).prev := by
  rw [setPrev, gl_set h i j _ hi]
  by_cases hji : j = i <;> simp [hji]

/-- Two relations that agree on the pairs a chain consults give the same
chains. -/
theorem chainExt {R S : Nat → Nat → Prop} :
    ∀ (l : List Nat),
      (∀ x ∈ l.dropLast, ∀ y ∈ l.tail, (R x y ↔ S x y)) →
      (List.Chain' R l ↔ List.Chain' S l) := by
  intro l
  induction l with
  | nil => intro _; simp
  | cons a rest ih =>
    intro hxy
    cases rest with
    | nil => simp
    | cons b t =>
      rw [List.chain'_cons, List.chain'_cons]
      have hhead : R a b ↔ S a b := by
        refine hxy a ?_ b ?_ <;> simp
      have htail : List.Chain' R (b :: t) ↔ List.Chain' S (b :: t) := by
        refine ih ?_
        intro x hx y hy
        refine hxy x ?_ y ?_
        · rw [List.dropLast_cons₂]; exact List.mem_cons_of_mem _ hx
        · exact List.mem_cons_of_mem _ hy
      rw [hhead, htail]

/-- A `next`-chain survives a heap change that leaves the `next` field of
every node but the last untouched. -/
theorem chain_next_transfer (h h2 : List Link) (l : List Nat)
    (hagree : ∀ x ∈ l.dropLast, (gl h2 x).next = (gl h x).next)
    (hc : List.Chain' (NextRel h) l) : List.Chain' (NextRel h2) l := by
  refine (chainExt l ?_).mp hc
  intro x hx y _
  unfold NextRel
  rw [hagree x hx]

/-- A `prev`-chain survives a heap change that leaves the `prev` field of
every node but the first untouched. -/
theorem chain_prev_transfer (h h2 : List Link) (l : List Nat)
    (hagree : ∀ y ∈ l.tail, (gl h2 y).prev = (gl h y).prev)
    (hc : List.Chain' (PrevRel h) l) : List.Chain' (PrevRel h2) l := by
  refine (chainExt l ?_).mp hc
  intro x _ y hy
  unfold PrevRel
  rw [hagree y hy]

/-- The root's outgoing pointer of a cycle chain is the first chained
node. -/
theorem chain_head (h : List Link) (root : Nat) (ns : List Nat)
    (step : Link → Nat)
    (hc : List.Chain' (fun x y => step (gl h x) = y) (root :: ns ++ [root])) :
    step (gl h root) = ns.headD root := by
  cases ns with
  | nil => exact (List.chain'_cons.mp hc).1
  | cons n rest => exact (List.chain'_cons.mp hc).1

/-- A backward cycle chain read forwards: the `prev` pointers step through
the reversed node list. -/
theorem prev_chain_reverse (h : List Link) (root : Nat) (ns : List Nat)
    (hc : List.Chain' (PrevRel h) (root :: ns ++ [root])) :
    List.Chain' (fun x y => (gl h x).prev = y)
      (root :: ns.reverse ++ [root]) := by
  have h2 : List.Chain' (fun x y => (gl h x).prev = y)
      ((root :: ns ++ [root]).reverse) := List.chain'_reverse.mpr hc
  have h3 : (root :: ns ++ [root]).reverse = root :: ns.reverse ++ [root] := by
    simp
  rwa [h3] at h2

/-- A duplicate-free list of numbers below `L` has at most `L` elements. -/
theorem nodup_length_le (l : List Nat) (L : Nat) (hnd : l.Nodup)
    (hlt : ∀ x ∈ l, x < L) : l.length ≤ L := by
  have h1 : l.toFinset ⊆ Finset.range L := by
    intro x hx
    simp only [List.mem_toFinset] at hx
    simpa using hlt x hx
  have h2 := Finset.card_le_card h1
  rwa [List.toFinset_card_of_nodup hnd, Finset.card_range] at h2

/-- The iteration loop follows a chain, emitting the chained nodes' keys. -/
theorem walk_go (h : List Link) (root : Nat) (sel : Link → Nat) :
    ∀ (ns : List Nat) (fuel : Nat), ns.length < fuel →
      (∀ n ∈ ns, n ≠ root) →
      List.Chain' (fun x y => sel (gl h x) = y) (ns ++ [root]) →
      walk h root sel fuel (ns.headD root) =
        ns.map (fun n => (gl h n).key.getD 0) := by
  intro ns
  induction ns with
  | nil =>
    intro fuel hfuel _ _
    match fuel, hfuel with
    | Nat.succ m, _ => simp [walk]
  | cons n rest ih =>
    intro fuel hfuel hne hchain
    match fuel, hfuel with
    | Nat.succ m, hf =>
      have hn : n ≠ root := hne n (by simp)
      have hstep : sel (gl h n) = rest.headD root := by
        cases rest with
        | nil => exact (List.chain'_cons.mp hchain).1
        | cons n2 t => exact (List.chain'_cons.mp hchain).1
      have hrest : List.Chain' (fun x y => sel (gl h x) = y)
          (rest ++ [root]) := by
        cases rest with
        | nil => simp
        | cons n2 t => exact (List.chain'_cons.mp hchain).2
      rw [List.headD_cons]
      simp only [walk, if_neg hn]
      rw [hstep, ih m (by simpa using hf)
        (fun x hx => hne x (by simp [hx])) hrest]
      simp

/-- Under the invariant, forward iteration emits exactly the chained nodes'
keys. -/
theorem iterKeys_eq (s : OD) (ns : List Nat) (w : WFw s ns) :
    s.iterKeys = ns.map (fun n => (gl s.heap n).key.getD 0) := by
  obtain ⟨wroot, wlt, wnotin, wnd, -, wfwd, -, -, -, -, -⟩ := w
  have hlen : ns.length < s.heap.length := by
    have := nodup_length_le (s.root :: ns) s.heap.length
      (List.nodup_cons.mpr ⟨wnotin, wnd⟩)
      (by intro x hx; rcases List.mem_cons.mp hx with hx | hx
          · exact hx ▸ wroot
          · exact wlt x hx)
    simpa using this
  have hhead : (gl s.heap s.root).next = ns.headD s.root :=
    chain_head s.heap s.root ns Link.next wfwd
  have hchain : List.Chain' (fun x y => Link.next (gl s.heap x) = y)
      (ns ++ [s.root]) := (List.chain'_cons'.mp wfwd).2
  rw [OD.iterKeys, hhead]
  exact walk_go s.heap s.root Link.next ns s.heap.length hlen
    (fun n hn he => wnotin (he ▸ hn)) hchain

/-- Under the invariant, reverse iteration emits the chained nodes' keys
backwards. -/
theorem iterKeysRev_eq (s : OD) (ns : List Nat) (w : WFw s ns) :
    s.iterKeysRev = (ns.map (fun n => (gl s.heap n).key.getD 0)).reverse := by
  obtain ⟨wroot, wlt, wnotin, wnd, -, -, wbwd, -, -, -, -⟩ := w
  have hrev := prev_chain_reverse s.heap s.root ns wbwd
  have hlen : ns.reverse.length < s.heap.length := by
    have := nodup_length_le (s.root :: ns) s.heap.length
      (List.nodup_cons.mpr ⟨wnotin, wnd⟩)
      (by intro x hx; rcases List.mem_cons.mp hx with hx | hx
          · exact hx ▸ wroot
          · exact wlt x hx)
    simp only [List.length_reverse]
    simpa using this
  have hhead : (gl s.heap s.root).prev = ns.reverse.headD s.root :=
    chain_head s.heap s.root ns.reverse Link.prev hrev
  have hchain : List.Chain' (fun x y => Link.prev (gl s.heap x) = y)
      (ns.reverse ++ [s.root]) := (List.chain'_cons'.mp hrev).2
  rw [OD.iterKeysRev, hhead]
  rw [walk_go s.heap s.root Link.prev ns.reverse s.heap.length hlen
    (fun n hn he => wnotin (he ▸ List.mem_reverse.mp hn)) hchain]
  simp

/-! ### Association-list dictionary lemmas (C8) -/

theorem dcontains_iff (d : List (Nat × Nat)) (k : Nat) :
    dcontains d k = true ↔ k ∈ d.map Prod.fst := by
  induction d with
  | nil => simp [dcontains]
  | cons e rest ih =>
    by_cases he : e.1 = k
    · simp [dcontains, List.find?_cons, he]
    · have he2 : (e.1 == k) = false := by simp [he]
      have hke : ¬ (k = e.1) := fun hx => he hx.symm
      simp [dcontains, List.find?_cons, he2, hke]

theorem dcontains_false_iff (d : List (Nat × Nat)) (k : Nat) :
    dcontains d k = false ↔ k ∉ d.map Prod.fst := by
  rw [← dcontains_iff]
  cases dcontains d k <;> simp

theorem dset_absent (d : List (Nat × Nat)) (k v : Nat)
    (h : dcontains d k = false) : dset d k v = d ++ [(k, v)] := by
  induction d with
  | nil => simp [dset]
  | cons e rest ih =>
    have he2 : (e.1 == k) = false := by
      by_contra hx
      simp only [Bool.not_eq_false, beq_iff_eq] at hx
      simp [dcontains, List.find?_cons, hx] at h
    have hrest : dcontains rest k = false := by
      simpa [dcontains, List.find?_cons, he2] using h
    simp [dset, he2, ih hrest]

theorem dset_keys_present (d : List (Nat × Nat)) (k v : Nat)
    (h : dcontains d k = true) :
    (dset d k v).map Prod.fst = d.map Prod.fst := by
  induction d with
  | nil => simp [dcontains] at h
  | cons e rest ih =>
    by_cases he : (e.1 == k) = true
    · simp [dset, he]
    · have he2 : (e.1 == k) = false := by simpa using he
      have hrest : dcontains rest k = true := by
        simpa [dcontains, List.find?_cons, he2] using h
      simp [dset, he2, ih hrest]

theorem derase_keys (d : List (Nat × Nat)) (k : Nat) :
    (derase d k).map Prod.fst =
      (d.map Prod.fst).filter (fun x => !(x == k)) := by
  induction d with
  | nil => simp [derase]
  | cons e rest ih =>
    by_cases he : (e.1 == k) = true
    · simpa [derase, List.filter_cons, he] using ih
    · have he2 : (e.1 == k) = false := by simpa using he
      simpa [derase, List.filter_cons, he2] using ih

theorem lookup_split (d : List (Nat × Nat)) (k x : Nat)
    (h : dlookup d k = some x) :
    ∃ m1 m2, d = m1 ++ (k, x) :: m2 ∧ ∀ p ∈ m1, (p.1 == k) = false := by
  induction d with
  | nil => simp [dlookup] at h
  | cons e rest ih =>
    by_cases he : (e.1 == k) = true
    · refine ⟨[], rest, ?_, by simp⟩
      have hx : e = (k, x) := by
        have h1 : e.1 = k := by simpa using he
        have h2 : e.2 = x := by
          simpa [dlookup, List.find?_cons, he] using h
        exact Prod.ext h1 h2
      simp [hx]
    · have he2 : (e.1 == k) = false := by simpa using he
      have hrest : dlookup rest k = some x := by
        simpa [dlookup, List.find?_cons, he2] using h
      obtain ⟨m1, m2, hsplit, hm1⟩ := ih hrest
      refine ⟨e :: m1, m2, by simp [hsplit], ?_⟩
      intro p hp
      rcases List.mem_cons.mp hp with rfl | hp
      · exact he2
      · exact hm1 p hp

theorem dcontains_lookup (d : List (Nat × Nat)) (k : Nat)
    (h : dcontains d k = true) : ∃ x, dlookup d k = some x := by
  unfold dcontains at h
  unfold dlookup
  cases hf : d.find? (fun e => e.1 == k) with
  | none => rw [hf] at h; simp at h
  | some e => exact ⟨e.2, by simp⟩

theorem filter_ne_middle (l1 l2 : List Nat) (k : Nat) (h1 : k ∉ l1)
    (h2 : k ∉ l2) :
    (l1 ++ k :: l2).filter (fun x => !(x == k)) = l1 ++ l2 := by
  rw [List.filter_append, List.filter_cons]
  simp only [beq_self_eq_true, Bool.not_true, Bool.false_eq_true, if_neg,
    ite_false]
  rw [List.filter_eq_self.mpr, List.filter_eq_self.mpr]
  · intro a ha; simp; intro he; exact h2 (he ▸ ha)
  · intro a ha; simp; intro he; exact h1 (he ▸ ha)

theorem derase_split (m1 m2 : List (Nat × Nat)) (k x : Nat)
    (h1 : ∀ p ∈ m1, (p.1 == k) = false)
    (h2 : ∀ p ∈ m2, (p.1 == k) = false) :
    derase (m1 ++ (k, x) :: m2) k = m1 ++ m2 := by
  unfold derase
  rw [List.filter_append, List.filter_cons]
  simp only [beq_self_eq_true, Bool.not_true, Bool.false_eq_true, if_neg,
    ite_false]
  rw [List.filter_eq_self.mpr, List.filter_eq_self.mpr]
  · intro a ha; simp [h2 a ha]
  · intro a ha; simp [h1 a ha]

theorem nodup_middle_not_mem (l1 l2 : List Nat) (k : Nat)
    (h : (l1 ++ k :: l2).Nodup) : k ∉ l1 ∧ k ∉ l2 := by
  have hp : (l1 ++ k :: l2).Perm (k :: (l1 ++ l2)) := List.perm_middle
  have h2 : (k :: (l1 ++ l2)).Nodup := hp.nodup h
  have h3 := List.nodup_cons.mp h2
  constructor
  · intro hx; exact h3.1 (List.mem_append.mpr (Or.inl hx))
  · intro hx; exact h3.1 (List.mem_append.mpr (Or.inr hx))

/-! ### Chain surgery lemmas (C8) -/

theorem getLast_not_mem_dropLast (l : List Nat) (hne : l ≠ [])
    (hnd : l.Nodup) : l.getLast hne ∉ l.dropLast := by
  intro hmem
  have heq := List.dropLast_append_getLast hne
  rw [← heq] at hnd
  have hd := (List.nodup_append.mp hnd).2.2
  exact hd hmem (by simp)

/-- In a backward cycle chain the root's `prev` is the last chained node. -/
theorem chain_root_prev (h : List Link) (root : Nat) (ms : List Nat)
    (hbwd : List.Chain' (PrevRel h) (root :: ms ++ [root])) :
    (gl h root).prev = (root :: ms).getLast (by simp) := by
  have hsplit := List.chain'_append.mp
    (show List.Chain' (PrevRel h) ((root :: ms) ++ [root]) from hbwd)
  have hmem : (root :: ms).getLast (by simp) ∈ (root :: ms).getLast? := by
    rw [List.getLast?_eq_getLast (root :: ms) (by simp)]; rfl
  exact hsplit.2.2 _ hmem root rfl

/-- The unlinked node's neighbours, read from the two cycle chains. -/
theorem unlink_pq (h : List Link) (root : Nat) (xs ys : List Nat) (idx : Nat)
    (hfwd : List.Chain' (NextRel h) (root :: (xs ++ idx :: ys) ++ [root]))
    (hbwd : List.Chain' (PrevRel h) (root :: (xs ++ idx :: ys) ++ [root])) :
    (gl h idx).prev = (root :: xs).getLast (by simp)
    ∧ (gl h idx).next = ys.headD root := by
  have hre : root :: (xs ++ idx :: ys) ++ [root] =
      (root :: xs) ++ idx :: (ys ++ [root]) := by simp
  rw [hre] at hfwd hbwd
  constructor
  · have h1 := (List.chain'_split.mp hbwd).1
    have hj := (List.chain'_append.mp h1).2.2
    have hmem : (root :: xs).getLast (by simp) ∈ (root :: xs).getLast? := by
      rw [List.getLast?_eq_getLast (root :: xs) (by simp)]; rfl
    exact hj _ hmem idx rfl
  · have h1 := (List.chain'_split.mp hfwd).2
    have h2 := (List.chain'_cons'.mp h1).1
    have hhead : (ys ++ [root]).head? = some (ys.headD root) := by
      cases ys <;> simp
    exact h2 (ys.headD root) (by rw [Option.mem_def, hhead])

/-- Splicing one node out of the cycle: after redirecting its predecessor's
`next` and successor's `prev` (and touching nothing else the chains
consult), both cycle chains hold over the remaining nodes. -/
theorem chains_unlink (h : List Link) (root : Nat) (xs ys : List Nat)
    (idx : Nat) (hnd : (root :: xs ++ idx :: ys).Nodup)
    (hfwd : List.Chain' (NextRel h) (root :: (xs ++ idx :: ys) ++ [root]))
    (hbwd : List.Chain' (PrevRel h) (root :: (xs ++ idx :: ys) ++ [root]))
    (h2 : List Link)
    (hnext2 : ∀ j, j ≠ (gl h idx).prev → (gl h2 j).next = (gl h j).next)
    (hprev2 : ∀ j, j ≠ (gl h idx).next → (gl h2 j).prev = (gl h j).prev)
    (hpn : (gl h2 ((gl h idx).prev)).next = (gl h idx).next)
    (hnp : (gl h2 ((gl h idx).next)).prev = (gl h idx).prev) :
    List.Chain' (NextRel h2) (root :: (xs ++ ys) ++ [root])
    ∧ List.Chain' (PrevRel h2) (root :: (xs ++ ys) ++ [root]) := by
  obtain ⟨hp, hq⟩ := unlink_pq h root xs ys idx hfwd hbwd
  have hnd' : ((root :: xs) ++ idx :: ys).Nodup := by simpa using hnd
  have hndl : (root :: xs).Nodup := (List.nodup_append.mp hnd').1
  have hndr : (idx :: ys).Nodup := (List.nodup_append.mp hnd').2.1
  have hdisj : (root :: xs).Disjoint (idx :: ys) :=
    (List.nodup_append.mp hnd').2.2
  have hPmem : (root :: xs).getLast (by simp) ∈ root :: xs :=
    List.getLast_mem _
  have hre : root :: (xs ++ idx :: ys) ++ [root] =
      (root :: xs) ++ idx :: (ys ++ [root]) := by simp
  rw [hre] at hfwd hbwd
  have hre2 : root :: (xs ++ ys) ++ [root] =
      (root :: xs) ++ (ys ++ [root]) := by simp
  rw [hre2]
  have hheadys : (ys ++ [root]).head? = some (ys.headD root) := by
    cases ys <;> simp
  have hqne : ∀ y ∈ List.tail (root :: xs), y ≠ (gl h idx).next := by
    intro y hy
    rw [hq]
    simp only [List.tail_cons] at hy
    cases ys with
    | nil =>
      rw [List.headD_nil]
      intro he
      exact (List.nodup_cons.mp hndl).1 (he ▸ hy)
    | cons y0 ys' =>
      rw [List.headD_cons]
      intro he
      exact hdisj (List.mem_cons_of_mem root hy) (by rw [he]; simp)
  constructor
  · refine List.Chain'.append ?_ ?_ ?_
    · have hold : List.Chain' (NextRel h) (root :: xs) :=
        ((List.chain'_split.mp hfwd).1).left_of_append
      refine chain_next_transfer h h2 _ ?_ hold
      intro x hx
      refine hnext2 x ?_
      rw [hp]
      intro he
      exact getLast_not_mem_dropLast (root :: xs) (by simp) hndl (he ▸ hx)
    · have hold : List.Chain' (NextRel h) (ys ++ [root]) :=
        ((List.chain'_split.mp hfwd).2).tail
      refine chain_next_transfer h h2 _ ?_ hold
      intro x hx
      rw [List.dropLast_concat] at hx
      refine hnext2 x ?_
      rw [hp]
      intro he
      exact hdisj (he ▸ hPmem) (List.mem_cons_of_mem idx hx)
    · intro a ha b hb
      rw [Option.mem_def, List.getLast?_eq_getLast (root :: xs) (by simp),
        Option.some_inj] at ha
      rw [Option.mem_def, hheadys, Option.some_inj] at hb
      show (gl h2 a).next = b
      rw [ha] at hp
      rw [← hp, hpn, hq]
      exact hb
  · refine List.Chain'.append ?_ ?_ ?_
    · have hold : List.Chain' (PrevRel h) (root :: xs) :=
        ((List.chain'_split.mp hbwd).1).left_of_append
      refine chain_prev_transfer h h2 _ ?_ hold
      intro y hy
      exact hprev2 y (hqne y hy)
    · have hold : List.Chain' (PrevRel h) (ys ++ [root]) :=
        ((List.chain'_split.mp hbwd).2).tail
      refine chain_prev_transfer h h2 _ ?_ hold
      intro y hy
      refine hprev2 y ?_
      rw [hq]
      cases ys with
      | nil => simp at hy
      | cons y0 ys' =>
        rw [List.headD_cons]
        simp only [List.cons_append, List.tail_cons] at hy
        intro he
        rcases List.mem_append.mp hy with hy' | hy'
        · have hy0 : y0 ∉ ys' :=
            (List.nodup_cons.mp (List.nodup_cons.mp hndr).2).1
          exact hy0 (he ▸ hy')
        · have hyr : y = root := by simpa using hy'
          exact hdisj (show y ∈ root :: xs by rw [hyr]; simp)
            (show y ∈ idx :: y0 :: ys' by rw [he]; simp)
    · intro a ha b hb
      rw [Option.mem_def, List.getLast?_eq_getLast (root :: xs) (by simp),
        Option.some_inj] at ha
      rw [Option.mem_def, hheadys, Option.some_inj] at hb
      show (gl h2 b).prev = a
      rw [hb] at hq
      rw [← hq, hnp, hp]
      exact ha

/-- Linking a node in just before the root: after pointing the old last
node's `next` and the root's `prev` at it and its own pointers at the old
last node and the root, both cycle chains hold with the node appended. -/
theorem chains_link_at_end (h : List Link) (root : Nat) (ms : List Nat)
    (idx : Nat) (hnotin : root ∉ ms) (hnd : ms.Nodup) (hidxms : idx ∉ ms)
    (hidxroot : idx ≠ root)
    (hfwd : List.Chain' (NextRel h) (root :: ms ++ [root]))
    (hbwd : List.Chain' (PrevRel h) (root :: ms ++ [root]))
    (h5 : List Link)
    (hidxnext : (gl h5 idx).next = root)
    (hidxprev : (gl h5 idx).prev = (gl h root).prev)
    (hr0 : (gl h5 ((gl h root).prev)).next = idx)
    (hrootprev : (gl h5 root).prev = idx)
    (hother_next : ∀ j, j ≠ idx → j ≠ (gl h root).prev →
      (gl h5 j).next = (gl h j).next)
    (hother_prev : ∀ j, j ≠ idx → j ≠ root →
      (gl h5 j).prev = (gl h j).prev) :
    List.Chain' (NextRel h5) (root :: (ms ++ [idx]) ++ [root])
    ∧ List.Chain' (PrevRel h5) (root :: (ms ++ [idx]) ++ [root]) := by
  have hndc : (root :: ms).Nodup := List.nodup_cons.mpr ⟨hnotin, hnd⟩
  have hchar : (gl h root).prev = (root :: ms).getLast (by simp) :=
    chain_root_prev h root ms hbwd
  have hre : root :: (ms ++ [idx]) ++ [root] =
      (root :: ms) ++ [idx, root] := by simp
  rw [hre]
  constructor
  · refine List.Chain'.append ?_ ?_ ?_
    · have hold : List.Chain' (NextRel h) (root :: ms) :=
        (List.chain'_append.mp
          (show List.Chain' (NextRel h) ((root :: ms) ++ [root])
            from hfwd)).1
      refine chain_next_transfer h h5 _ ?_ hold
      intro x hx
      have hx' : x ∈ root :: ms :=
        (List.dropLast_sublist (root :: ms)).mem hx
      refine hother_next x ?_ ?_
      · intro he
        rcases List.mem_cons.mp (he ▸ hx') with hr | hm
        · exact hidxroot hr
        · exact hidxms hm
      · rw [hchar]
        intro he
        exact getLast_not_mem_dropLast (root :: ms) (by simp) hndc
          (he ▸ hx)
    · exact List.chain'_cons.mpr ⟨hidxnext, List.chain'_singleton _⟩
    · intro a ha b hb
      rw [Option.mem_def, List.getLast?_eq_getLast (root :: ms) (by simp),
        Option.some_inj] at ha
      have hb' : b = idx := by
        rw [Option.mem_def] at hb
        simpa using hb.symm
      show (gl h5 a).next = b
      rw [hb', ← ha, ← hchar]
      exact hr0
  · refine List.Chain'.append ?_ ?_ ?_
    · have hold : List.Chain' (PrevRel h) (root :: ms) :=
        (List.chain'_append.mp
          (show List.Chain' (PrevRel h) ((root :: ms) ++ [root])
            from hbwd)).1
      refine chain_prev_transfer h h5 _ ?_ hold
      intro y hy
      simp only [List.tail_cons] at hy
      refine hother_prev y ?_ ?_
      · intro he; exact hidxms (he ▸ hy)
      · intro he; exact hnotin (he ▸ hy)
    · exact List.chain'_cons.mpr ⟨hrootprev, List.chain'_singleton _⟩
    · intro a ha b hb
      rw [Option.mem_def, List.getLast?_eq_getLast (root :: ms) (by simp),
        Option.some_inj] at ha
      have hb' : b = idx := by
        rw [Option.mem_def] at hb
        simpa using hb.symm
      show (gl h5 b).prev = a
      rw [hb', hidxprev, hchar]
      exact ha

/-- Linking a node in just after the root (`move_to_end(last=False)`). -/
theorem chains_link_at_front (h : List Link) (root : Nat) (ms : List Nat)
    (idx : Nat) (hnotin : root ∉ ms) (hnd : ms.Nodup) (hidxms : idx ∉ ms)
    (hidxroot : idx ≠ root)
    (hfwd : List.Chain' (NextRel h) (root :: ms ++ [root]))
    (hbwd : List.Chain' (PrevRel h) (root :: ms ++ [root]))
    (h5 : List Link)
    (hidxprev : (gl h5 idx).prev = root)
    (hidxnext : (gl h5 idx).next = (gl h root).next)
    (hrootnext : (gl h5 root).next = idx)
    (hr1 : (gl h5 ((gl h root).next)).prev = idx)
    (hother_next : ∀ j, j ≠ idx → j ≠ root →
      (gl h5 j).next = (gl h j).next)
    (hother_prev : ∀ j, j ≠ idx → j ≠ (gl h root).next →
      (gl h5 j).prev = (gl h j).prev) :
    List.Chain' (NextRel h5) (root :: (idx :: ms) ++ [root])
    ∧ List.Chain' (PrevRel h5) (root :: (idx :: ms) ++ [root]) := by
  have hQ : (gl h root).next = ms.headD root :=
    chain_head h root ms Link.next hfwd
  have hheadms : (ms ++ [root]).head? = some (ms.headD root) := by
    cases ms <;> simp
  constructor
  · refine List.chain'_cons.mpr ⟨hrootnext, ?_⟩
    refine List.chain'_cons'.mpr ⟨?_, ?_⟩
    · intro y hy
      simp only [List.append_eq] at hy
      rw [Option.mem_def, hheadms, Option.some_inj] at hy
      show (gl h5 idx).next = y
      rw [hidxnext, hQ]
      exact hy
    · have hold : List.Chain' (NextRel h) (ms ++ [root]) := hfwd.tail
      refine chain_next_transfer h h5 _ ?_ hold
      intro x hx
      simp only [List.append_eq] at hx
      rw [List.dropLast_concat] at hx
      refine hother_next x ?_ ?_
      · intro he; exact hidxms (he ▸ hx)
      · intro he; exact hnotin (he ▸ hx)
  · refine List.chain'_cons.mpr ⟨?_, ?_⟩
    · show (gl h5 idx).prev = root
      exact hidxprev
    · refine List.chain'_cons'.mpr ⟨?_, ?_⟩
      · intro y hy
        simp only [List.append_eq] at hy
        rw [Option.mem_def, hheadms, Option.some_inj] at hy
        show (gl h5 y).prev = idx
        rw [← hy, ← hQ]
        exact hr1
      · have hold : List.Chain' (PrevRel h) (ms ++ [root]) := hbwd.tail
        refine chain_prev_transfer h h5 _ ?_ hold
        intro y hy
        refine hother_prev y ?_ ?_
        · intro he
          rw [he] at hy
          cases ms with
          | nil => simp at hy
          | cons m0 ms' =>
            simp only [List.append_eq, List.cons_append, List.tail_cons] at hy
            rcases List.mem_append.mp hy with hy' | hy'
            · exact hidxms (List.mem_cons_of_mem m0 hy')
            · have : idx = root := by simpa using hy'
              exact hidxroot this
        · rw [hQ]
          cases ms with
          | nil => simp at hy
          | cons m0 ms' =>
            rw [List.headD_cons]
            simp only [List.append_eq, List.cons_append, List.tail_cons] at hy
            intro he
            rcases List.mem_append.mp hy with hy' | hy'
            · exact (List.nodup_cons.mp hnd).1 (he ▸ hy')
            · have hyr : y = root := by simpa using hy'
              exact hnotin (by rw [← he, hyr]; simp)

theorem gl_append_ne (h : List Link) (x : Link) (j : Nat)
    (hj : j ≠ h.length) : gl (h ++ [x]) j = gl h j := by
  by_cases hlt : j < h.length
  · exact gl_append_lt h x j hlt
  · have h1 : (h ++ [x]).length ≤ j := by simp; omega
    have h2 : h.length ≤ j := by omega
    simp [gl, List.getD, List.getElem?_eq_none h1, List.getElem?_eq_none h2]

/-! ### Operation lemmas (C8) -/

/-- `__setitem__` with a fresh key preserves the invariant, appending the
new node at the end; all other nodes keep their keys. -/
theorem WFw_setitem_new (s : OD) (ns : List Nat) (k v : Nat)
    (w : WFw s ns) (hk : dcontains s.d k = false) :
    WFw (s.setitem k v) (ns ++ [s.heap.length])
    ∧ (∀ j, j ≠ s.heap.length →
        (gl (s.setitem k v).heap j).key = (gl s.heap j).key)
    ∧ (gl (s.setitem k v).heap s.heap.length).key = some k := by
  obtain ⟨wroot, wlt, wnotin, wnd, wkey, wfwd, wbwd, wperm, wmk, wknd, wdk⟩
    := w
  have hstate : s.setitem k v =
      ⟨setPrev
          (setNext (s.heap ++ [⟨some k, (gl s.heap s.root).prev, s.root⟩])
            ((gl s.heap s.root).prev) s.heap.length)
          s.root s.heap.length,
        s.root, s.map ++ [(k, s.heap.length)], dset s.d k v⟩ := by
    simp [OD.setitem, hk]
  rw [hstate]
  set L := s.heap.length with hLdef
  set last := (gl s.heap s.root).prev with hlastdef
  set nl : Link := ⟨some k, last, s.root⟩ with hnldef
  set h1 := s.heap ++ [nl] with hh1
  set h2 := setNext h1 last L with hh2
  set h3 := setPrev h2 s.root L with hh3
  have hlastchar : last = (s.root :: ns).getLast (by simp) :=
    chain_root_prev s.heap s.root ns wbwd
  have hlastmem : last ∈ s.root :: ns := by
    rw [hlastchar]; exact List.getLast_mem _
  have hlastlt : last < L := by
    rcases List.mem_cons.mp hlastmem with h | h
    · rw [h]; exact wroot
    · exact wlt last h
  have hrootL : s.root ≠ L := Nat.ne_of_lt wroot
  have hLns : L ∉ ns := fun hm => absurd (wlt L hm) (lt_irrefl L)
  have h1len : h1.length = L + 1 := by simp [hh1]
  have h2len : h2.length = L + 1 := by rw [hh2, length_setNext, h1len]
  have h3len : h3.length = L + 1 := by rw [hh3, length_setPrev, h2len]
  have glh1_L : gl h1 L = nl := gl_append_eq s.heap nl
  have glh1_ne : ∀ j, j ≠ L → gl h1 j = gl s.heap j := fun j hj =>
    gl_append_ne s.heap nl j hj
  have next_h2 : ∀ j, (gl h2 j).next =
      if j = last then L else (gl h1 j).next := fun j =>
    next_setNext h1 last L j (by omega)
  have prev_h2 : ∀ j, (gl h2 j).prev = (gl h1 j).prev :=
    prev_setNext h1 last L
  have key_h2 : ∀ j, (gl h2 j).key = (gl h1 j).key :=
    key_setNext h1 last L
  have next_h3 : ∀ j, (gl h3 j).next = (gl h2 j).next :=
    next_setPrev h2 s.root L
  have prev_h3 : ∀ j, (gl h3 j).prev =
      if j = s.root then L else (gl h2 j).prev := fun j =>
    prev_setPrev h2 s.root L j (by omega)
  have key_h3 : ∀ j, (gl h3 j).key = (gl h2 j).key :=
    key_setPrev h2 s.root L
  have hkeep : ∀ j, j ≠ L → (gl h3 j).key = (gl s.heap j).key := by
    intro j hj
    rw [key_h3, key_h2, glh1_ne j hj]
  have hkeyL : (gl h3 L).key = some k := by
    rw [key_h3, key_h2, glh1_L]
  have hidxnext : (gl h3 L).next = s.root := by
    rw [next_h3, next_h2]
    rw [if_neg (by omega), glh1_L]
  have hidxprev : (gl h3 L).prev = last := by
    rw [prev_h3, if_neg (Ne.symm hrootL), prev_h2, glh1_L]
  have hr0 : (gl h3 last).next = L := by
    rw [next_h3, next_h2, if_pos rfl]
  have hrootprev : (gl h3 s.root).prev = L := by
    rw [prev_h3, if_pos rfl]
  have hother_next : ∀ j, j ≠ L → j ≠ last →
      (gl h3 j).next = (gl s.heap j).next := by
    intro j hjL hjlast
    rw [next_h3, next_h2, if_neg hjlast, glh1_ne j hjL]
  have hother_prev : ∀ j, j ≠ L → j ≠ s.root →
      (gl h3 j).prev = (gl s.heap j).prev := by
    intro j hjL hjroot
    rw [prev_h3, if_neg hjroot, prev_h2, glh1_ne j hjL]
  have hchains := chains_link_at_end s.heap s.root ns L wnotin wnd hLns
    (Ne.symm hrootL) wfwd wbwd h3 hidxnext hidxprev hr0 hrootprev
    hother_next hother_prev
  have hkns : k ∉ s.map.map Prod.fst := by
    have := (dcontains_false_iff s.d k).mp hk
    rwa [wdk] at this
  refine ⟨⟨?_, ?_, ?_, ?_, ?_, hchains.1, hchains.2, ?_, ?_, ?_, ?_⟩,
    hkeep, hkeyL⟩
  · show s.root < h3.length
    omega
  · intro n hn
    show n < h3.length
    rcases List.mem_append.mp hn with h | h
    · have := wlt n h; omega
    · have : n = L := by simpa using h
      omega
  · intro hm
    rcases List.mem_append.mp hm with h | h
    · exact wnotin h
    · exact hrootL (by simpa using h)
  · refine List.Nodup.append wnd (List.nodup_singleton L) ?_
    intro a ha hb
    have : a = L := by simpa using hb
    exact hLns (this ▸ ha)
  · show (gl h3 s.root).key = none
    rw [hkeep s.root hrootL]
    exact wkey
  · show ((s.map ++ [(k, L)]).map Prod.snd).Perm (ns ++ [L])
    rw [List.map_append]
    exact wperm.append (List.Perm.refl _)
  · intro p hp
    rcases List.mem_append.mp hp with h | h
    · have hp2 : p.2 ∈ s.map.map Prod.snd := List.mem_map_of_mem Prod.snd h
      have hp2ns : p.2 ∈ ns := wperm.mem_iff.mp hp2
      have : p.2 ≠ L := by
        have := wlt p.2 hp2ns; omega
      rw [hkeep p.2 this]
      exact wmk p h
    · have : p = (k, L) := by simpa using h
      rw [this]
      exact hkeyL
  · show ((s.map ++ [(k, L)]).map Prod.fst).Nodup
    rw [List.map_append]
    refine List.Nodup.append wknd (List.nodup_singleton k) ?_
    intro a ha hb
    have : a = k := by simpa using hb
    exact hkns (this ▸ ha)
  · show (dset s.d k v).map Prod.fst = (s.map ++ [(k, L)]).map Prod.fst
    rw [dset_absent s.d k v hk, List.map_append, List.map_append, wdk]
    simp

/-- `__setitem__` with an existing key only rewrites the payload value. -/
theorem WFw_setitem_old (s : OD) (ns : List Nat) (k v : Nat)
    (w : WFw s ns) (hk : dcontains s.d k = true) :
    WFw (s.setitem k v) ns
    ∧ (s.setitem k v).heap = s.heap ∧ (s.setitem k v).root = s.root := by
  have hheap : (s.setitem k v).heap = s.heap := by simp [OD.setitem, hk]
  have hroot : (s.setitem k v).root = s.root := by simp [OD.setitem, hk]
  have hmap : (s.setitem k v).map = s.map := by simp [OD.setitem, hk]
  have hd : (s.setitem k v).d = dset s.d k v := by simp [OD.setitem, hk]
  obtain ⟨wroot, wlt, wnotin, wnd, wkey, wfwd, wbwd, wperm, wmk, wknd, wdk⟩
    := w
  refine ⟨?_, hheap, hroot⟩
  unfold WFw
  rw [hheap, hroot, hmap, hd]
  exact ⟨wroot, wlt, wnotin, wnd, wkey, wfwd, wbwd, wperm, wmk, wknd,
    by rw [dset_keys_present s.d k v hk]; exact wdk⟩

theorem WF_setitem (s : OD) (k v : Nat) (h : WF s) : WF (s.setitem k v) := by
  obtain ⟨ns, w⟩ := h
  cases hk : dcontains s.d k with
  | false => exact ⟨ns ++ [s.heap.length], (WFw_setitem_new s ns k v w hk).1⟩
  | true => exact ⟨ns, (WFw_setitem_old s ns k v w hk).1⟩

theorem WFw_clear (s : OD) : WFw s.clear [] := by
  have hstate : s.clear =
      ⟨s.heap ++ [⟨none, s.heap.length, s.heap.length⟩],
        s.heap.length, [], []⟩ := rfl
  rw [hstate]
  refine ⟨by simp, by intro n hn; simp at hn, by simp, by simp, ?_, ?_, ?_,
    by simp, by intro p hp; simp at hp, by simp, by simp⟩
  · show (gl (s.heap ++ [⟨none, s.heap.length, s.heap.length⟩])
      s.heap.length).key = none
    rw [gl_append_eq]
  · refine List.chain'_cons.mpr ⟨?_, List.chain'_singleton _⟩
    show (gl (s.heap ++ [⟨none, s.heap.length, s.heap.length⟩])
      s.heap.length).next = s.heap.length
    rw [gl_append_eq]
  · refine List.chain'_cons.mpr ⟨?_, List.chain'_singleton _⟩
    show (gl (s.heap ++ [⟨none, s.heap.length, s.heap.length⟩])
      s.heap.length).prev = s.heap.length
    rw [gl_append_eq]

theorem WF_empty : WF OD.empty :=
  ⟨[], by decide, by decide, by decide, by decide, by decide,
    List.chain'_cons.mpr ⟨rfl, List.chain'_singleton _⟩,
    List.chain'_cons.mpr ⟨rfl, List.chain'_singleton _⟩,
    by decide, by decide, by decide, by decide⟩

theorem WF_update (items : List (Nat × Nat)) :
    ∀ s : OD, WF s → WF (s.update items) := by
  induction items with
  | nil => intro s h; simpa [OD.update] using h
  | cons p rest ih =>
    intro s h
    have hstep : s.update (p :: rest) = (s.setitem p.1 p.2).update rest := by
      simp [OD.update]
    rw [hstep]
    exact ih _ (WF_setitem s p.1 p.2 h)

/-- `__delitem__` on a live key unlinks exactly its node and drops exactly
its `_map` and payload entries; every node keeps its key. -/
theorem WFw_delitem (s : OD) (ns : List Nat) (k : Nat) (w : WFw s ns)
    (s2 : OD) (hdel : s.delitem k = some s2) :
    ∃ xs ys idx, ns = xs ++ idx :: ys
      ∧ (gl s.heap idx).key = some k
      ∧ WFw s2 (xs ++ ys)
      ∧ (∀ j, (gl s2.heap j).key = (gl s.heap j).key) := by
  obtain ⟨wroot, wlt, wnotin, wnd, wkey, wfwd, wbwd, wperm, wmk, wknd, wdk⟩
    := w
  have hk : dcontains s.d k = true := by
    cases hc : dcontains s.d k with
    | true => rfl
    | false => rw [OD.delitem, hc] at hdel; simp at hdel
  have hkmem : k ∈ s.map.map Prod.fst := by
    have := (dcontains_iff s.d k).mp hk
    rwa [wdk] at this
  have hkmap : dcontains s.map k = true := (dcontains_iff s.map k).mpr hkmem
  obtain ⟨idx, hidxlk⟩ := dcontains_lookup s.map k hkmap
  obtain ⟨m1, m2, hmsplit, hm1k⟩ := lookup_split s.map k idx hidxlk
  have hidxval : (dlookup s.map k).getD 0 = idx := by rw [hidxlk]; rfl
  have hs2 : s2 =
      ⟨setPrev
          (setNext s.heap (gl s.heap idx).prev (gl s.heap idx).next)
          (gl s.heap idx).next (gl s.heap idx).prev,
        s.root, derase s.map k, derase s.d k⟩ := by
    have h0 : s.delitem k = some
        ⟨setPrev
            (setNext s.heap (gl s.heap idx).prev (gl s.heap idx).next)
            (gl s.heap idx).next (gl s.heap idx).prev,
          s.root, derase s.map k, derase s.d k⟩ := by
      simp [OD.delitem, hk, hidxval]
    rw [h0] at hdel
    exact (Option.some_inj.mp hdel).symm
  have hidxns : idx ∈ ns := wperm.mem_iff.mp (by rw [hmsplit]; simp)
  obtain ⟨xs, ys, hnssplit⟩ := List.append_of_mem hidxns
  subst hnssplit
  have hkeyidx : (gl s.heap idx).key = some k :=
    wmk (k, idx) (by rw [hmsplit]; simp)
  have hknotm : k ∉ m1.map Prod.fst ∧ k ∉ m2.map Prod.fst := by
    have hmk : s.map.map Prod.fst =
        m1.map Prod.fst ++ k :: m2.map Prod.fst := by
      rw [hmsplit]; simp
    exact nodup_middle_not_mem _ _ k (by rw [← hmk]; exact wknd)
  have hm2k : ∀ p ∈ m2, (p.1 == k) = false := by
    intro p hp
    by_cases hx : p.1 = k
    · exact absurd (hx ▸ List.mem_map_of_mem Prod.fst hp) hknotm.2
    · simpa using hx
  have hderasemap : derase s.map k = m1 ++ m2 := by
    rw [hmsplit]; exact derase_split m1 m2 k idx hm1k hm2k
  obtain ⟨hp, hq⟩ := unlink_pq s.heap s.root xs ys idx wfwd wbwd
  have hplt : (gl s.heap idx).prev < s.heap.length := by
    have hpmem : (gl s.heap idx).prev ∈ s.root :: xs := by
      rw [hp]; exact List.getLast_mem _
    rcases List.mem_cons.mp hpmem with h | h
    · rw [h]; exact wroot
    · exact wlt _ (List.mem_append.mpr (Or.inl h))
  have hqlt : (gl s.heap idx).next < s.heap.length := by
    rw [hq]
    cases ys with
    | nil => simpa using wroot
    | cons y0 ys' =>
      rw [List.headD_cons]
      exact wlt y0 (List.mem_append.mpr (Or.inr (by simp)))
  set p := (gl s.heap idx).prev with hpdef
  set q := (gl s.heap idx).next with hqdef
  set h1 := setNext s.heap p q with hh1
  set h2f := setPrev h1 q p with hh2f
  have h1len : h1.length = s.heap.length := length_setNext s.heap p q
  have h2len : h2f.length = s.heap.length := by
    rw [hh2f, length_setPrev, h1len]
  have hnext2 : ∀ j, j ≠ p → (gl h2f j).next = (gl s.heap j).next := by
    intro j hj
    rw [hh2f, next_setPrev, hh1, next_setNext s.heap p q j hplt, if_neg hj]
  have hprev2 : ∀ j, j ≠ q → (gl h2f j).prev = (gl s.heap j).prev := by
    intro j hj
    rw [hh2f, prev_setPrev h1 q p j (by rw [h1len]; exact hqlt), if_neg hj,
      hh1, prev_setNext]
  have hpn : (gl h2f p).next = q := by
    rw [hh2f, next_setPrev, hh1, next_setNext s.heap p q p hplt, if_pos rfl]
  have hnp : (gl h2f q).prev = p := by
    rw [hh2f, prev_setPrev h1 q p q (by rw [h1len]; exact hqlt), if_pos rfl]
  have hkeys2 : ∀ j, (gl h2f j).key = (gl s.heap j).key := by
    intro j
    rw [hh2f, key_setPrev, hh1, key_setNext]
  have hndfull : (s.root :: xs ++ idx :: ys).Nodup :=
    List.nodup_cons.mpr ⟨wnotin, wnd⟩
  have hchains := chains_unlink s.heap s.root xs ys idx hndfull wfwd wbwd
    h2f hnext2 hprev2 hpn hnp
  have hsub : (xs ++ ys).Sublist (xs ++ idx :: ys) :=
    List.Sublist.append_left (List.sublist_cons_self idx ys) xs
  refine ⟨xs, ys, idx, rfl, hkeyidx, ?_, ?_⟩
  · rw [hs2]
    refine ⟨?_, ?_, ?_, ?_, ?_, hchains.1, hchains.2, ?_, ?_, ?_, ?_⟩
    · show s.root < h2f.length
      rw [h2len]; exact wroot
    · intro n hn
      show n < h2f.length
      rw [h2len]
      exact wlt n (hsub.mem hn)
    · intro hm
      exact wnotin (hsub.mem hm)
    · exact wnd.sublist hsub
    · show (gl h2f s.root).key = none
      rw [hkeys2]; exact wkey
    · show ((derase s.map k).map Prod.snd).Perm (xs ++ ys)
      rw [hderasemap]
      have hmapsnd : s.map.map Prod.snd =
          m1.map Prod.snd ++ idx :: m2.map Prod.snd := by
        rw [hmsplit]; simp
      have hwp : (m1.map Prod.snd ++ idx :: m2.map Prod.snd).Perm
          (xs ++ idx :: ys) := by rw [← hmapsnd]; exact wperm
      have h1p : (m1.map Prod.snd ++ idx :: m2.map Prod.snd).Perm
          (idx :: (m1.map Prod.snd ++ m2.map Prod.snd)) := List.perm_middle
      have h2p : (xs ++ idx :: ys).Perm (idx :: (xs ++ ys)) :=
        List.perm_middle
      have := (h1p.symm.trans hwp).trans h2p
      have hfin := this.cons_inv
      simpa using hfin
    · intro pr hpr
      have hpr2 : pr ∈ derase s.map k := hpr
      rw [hderasemap] at hpr2
      have hprm : pr ∈ s.map := by
        rw [hmsplit]
        rcases List.mem_append.mp hpr2 with h | h
        · exact List.mem_append.mpr (Or.inl h)
        · exact List.mem_append.mpr (Or.inr (List.mem_cons_of_mem _ h))
      show (gl h2f pr.2).key = some pr.1
      rw [hkeys2]
      exact wmk pr hprm
    · show ((derase s.map k).map Prod.fst).Nodup
      rw [hderasemap]
      have hkeyssub : ((m1 ++ m2).map Prod.fst).Sublist
          (s.map.map Prod.fst) := by
        rw [hmsplit]
        simp only [List.map_append, List.map_cons]
        exact List.Sublist.append_left
          (List.sublist_cons_self k (m2.map Prod.fst)) _
      exact wknd.sublist hkeyssub
    · show (derase s.d k).map Prod.fst = (derase s.map k).map Prod.fst
      rw [derase_keys, derase_keys, wdk]
  · intro j
    rw [hs2]
    exact hkeys2 j

/-- `move_to_end(key, last=True)` on a live key unlinks its node and
re-links it just before the root; `_map`, the payload and all keys stay. -/
theorem WFw_move_last (s : OD) (ns : List Nat) (k : Nat) (w : WFw s ns)
    (s2 : OD) (hmv : s.moveToEnd k true = some s2) :
    ∃ xs ys idx, ns = xs ++ idx :: ys
      ∧ (gl s.heap idx).key = some k
      ∧ WFw s2 ((xs ++ ys) ++ [idx])
      ∧ (∀ j, (gl s2.heap j).key = (gl s.heap j).key) := by
  obtain ⟨wroot, wlt, wnotin, wnd, wkey, wfwd, wbwd, wperm, wmk, wknd, wdk⟩
    := w
  have hk : dcontains s.d k = true := by
    cases hc : dcontains s.d k with
    | true => rfl
    | false => rw [OD.moveToEnd, hc] at hmv; simp at hmv
  have hkmem : k ∈ s.map.map Prod.fst := by
    have := (dcontains_iff s.d k).mp hk
    rwa [wdk] at this
  have hkmap : dcontains s.map k = true := (dcontains_iff s.map k).mpr hkmem
  obtain ⟨idx, hidxlk⟩ := dcontains_lookup s.map k hkmap
  have hidxval : (dlookup s.map k).getD 0 = idx := by rw [hidxlk]; rfl
  have hidxmapmem : (k, idx) ∈ s.map := by
    obtain ⟨m1, m2, hmsplit, -⟩ := lookup_split s.map k idx hidxlk
    rw [hmsplit]; simp
  have hidxns : idx ∈ ns := wperm.mem_iff.mp
    (List.mem_map_of_mem Prod.snd hidxmapmem)
  obtain ⟨xs, ys, hnssplit⟩ := List.append_of_mem hidxns
  subst hnssplit
  have hkeyidx : (gl s.heap idx).key = some k := wmk (k, idx) hidxmapmem
  have hidxnotin : idx ∉ xs ∧ idx ∉ ys := nodup_middle_not_mem xs ys idx wnd
  have hidxroot : idx ≠ s.root := fun he =>
    wnotin (he ▸ List.mem_append.mpr (Or.inr (by simp)))
  have hidxlt : idx < s.heap.length :=
    wlt idx (List.mem_append.mpr (Or.inr (by simp)))
  obtain ⟨hp, hq⟩ := unlink_pq s.heap s.root xs ys idx wfwd wbwd
  have hplt : (gl s.heap idx).prev < s.heap.length := by
    have hpmem : (gl s.heap idx).prev ∈ s.root :: xs := by
      rw [hp]; exact List.getLast_mem _
    rcases List.mem_cons.mp hpmem with h | h
    · rw [h]; exact wroot
    · exact wlt _ (List.mem_append.mpr (Or.inl h))
  have hqlt : (gl s.heap idx).next < s.heap.length := by
    rw [hq]
    cases ys with
    | nil => simpa using wroot
    | cons y0 ys' =>
      rw [List.headD_cons]
      exact wlt y0 (List.mem_append.mpr (Or.inr (by simp)))
  set p := (gl s.heap idx).prev with hpdef
  set q := (gl s.heap idx).next with hqdef
  set h1 := setNext s.heap p q with hh1
  set h2f := setPrev h1 q p with hh2f
  have h1len : h1.length = s.heap.length := length_setNext s.heap p q
  have h2len : h2f.length = s.heap.length := by
    rw [hh2f, length_setPrev, h1len]
  have hnext2 : ∀ j, j ≠ p → (gl h2f j).next = (gl s.heap j).next := by
    intro j hj
    rw [hh2f, next_setPrev, hh1, next_setNext s.heap p q j hplt, if_neg hj]
  have hprev2 : ∀ j, j ≠ q → (gl h2f j).prev = (gl s.heap j).prev := by
    intro j hj
    rw [hh2f, prev_setPrev h1 q p j (by rw [h1len]; exact hqlt), if_neg hj,
      hh1, prev_setNext]
  have hpn : (gl h2f p).next = q := by
    rw [hh2f, next_setPrev, hh1, next_setNext s.heap p q p hplt, if_pos rfl]
  have hnp : (gl h2f q).prev = p := by
    rw [hh2f, prev_setPrev h1 q p q (by rw [h1len]; exact hqlt), if_pos rfl]
  have hkeys2 : ∀ j, (gl h2f j).key = (gl s.heap j).key := by
    intro j
    rw [hh2f, key_setPrev, hh1, key_setNext]
  have hndfull : (s.root :: xs ++ idx :: ys).Nodup :=
    List.nodup_cons.mpr ⟨wnotin, wnd⟩
  have hchains := chains_unlink s.heap s.root xs ys idx hndfull wfwd wbwd
    h2f hnext2 hprev2 hpn hnp
  -- the relink target
  set r0 := (gl h2f s.root).prev with hr0def
  set h3 := setNext h2f r0 idx with hh3
  set h4 := setPrev h3 s.root idx with hh4
  set p4 := setPrev h4 idx r0 with hp4
  set h5 := setNext p4 idx s.root with hh5
  have hs2 : s2 = ⟨h5, s.root, s.map, s.d⟩ := by
    have h0 : s.moveToEnd k true = some ⟨h5, s.root, s.map, s.d⟩ := by
      simp only [OD.moveToEnd, hk, hidxval, if_true, hh5, hp4, hh4, hh3,
        hr0def, hh2f, hh1, hpdef, hqdef]
    rw [h0] at hmv
    exact (Option.some_inj.mp hmv).symm
  have hr0char : r0 = (s.root :: (xs ++ ys)).getLast (by simp) :=
    chain_root_prev h2f s.root (xs ++ ys) hchains.2
  have hr0mem : r0 ∈ s.root :: (xs ++ ys) := by
    rw [hr0char]; exact List.getLast_mem _
  have hr0lt : r0 < s.heap.length := by
    rcases List.mem_cons.mp hr0mem with h | h
    · rw [h]; exact wroot
    · rcases List.mem_append.mp h with h | h
      · exact wlt _ (List.mem_append.mpr (Or.inl h))
      · exact wlt _ (List.mem_append.mpr (Or.inr (List.mem_cons_of_mem _ h)))
  have hr0idx : r0 ≠ idx := by
    intro he
    rcases List.mem_cons.mp (he ▸ hr0mem) with h | h
    · exact hidxroot h
    · rcases List.mem_append.mp h with h | h
      · exact hidxnotin.1 h
      · exact hidxnotin.2 h
  have h3len : h3.length = s.heap.length := by
    rw [hh3, length_setNext, h2len]
  have h4len : h4.length = s.heap.length := by
    rw [hh4, length_setPrev, h3len]
  have p4len : p4.length = s.heap.length := by
    rw [hp4, length_setPrev, h4len]
  have hidxnext5 : (gl h5 idx).next = s.root := by
    rw [hh5, next_setNext p4 idx s.root idx (by rw [p4len]; exact hidxlt),
      if_pos rfl]
  have hidxprev5 : (gl h5 idx).prev = r0 := by
    rw [hh5, prev_setNext, hp4,
      prev_setPrev h4 idx r0 idx (by rw [h4len]; exact hidxlt), if_pos rfl]
  have hr05 : (gl h5 r0).next = idx := by
    rw [hh5, next_setNext p4 idx s.root r0 (by rw [p4len]; exact hidxlt),
      if_neg hr0idx, hp4, next_setPrev, hh4, next_setPrev, hh3,
      next_setNext h2f r0 idx r0 (by rw [h2len]; exact hr0lt), if_pos rfl]
  have hroot5 : (gl h5 s.root).prev = idx := by
    rw [hh5, prev_setNext, hp4,
      prev_setPrev h4 idx r0 s.root (by rw [h4len]; exact hidxlt),
      if_neg (Ne.symm hidxroot), hh4,
      prev_setPrev h3 s.root idx s.root (by rw [h3len]; exact wroot),
      if_pos rfl]
  have hother_next5 : ∀ j, j ≠ idx → j ≠ r0 →
      (gl h5 j).next = (gl h2f j).next := by
    intro j hji hjr
    rw [hh5, next_setNext p4 idx s.root j (by rw [p4len]; exact hidxlt),
      if_neg hji, hp4, next_setPrev, hh4, next_setPrev, hh3,
      next_setNext h2f r0 idx j (by rw [h2len]; exact hr0lt), if_neg hjr]
  have hother_prev5 : ∀ j, j ≠ idx → j ≠ s.root →
      (gl h5 j).prev = (gl h2f j).prev := by
    intro j hji hjr
    rw [hh5, prev_setNext, hp4,
      prev_setPrev h4 idx r0 j (by rw [h4len]; exact hidxlt), if_neg hji,
      hh4, prev_setPrev h3 s.root idx j (by rw [h3len]; exact wroot),
      if_neg hjr, hh3, prev_setNext]
  have hkeys5 : ∀ j, (gl h5 j).key = (gl s.heap j).key := by
    intro j
    rw [hh5, key_setNext, hp4, key_setPrev, hh4, key_setPrev, hh3,
      key_setNext, hkeys2]
  have h5len : h5.length = s.heap.length := by
    rw [hh5, length_setNext, p4len]
  have hsub : (xs ++ ys).Sublist (xs ++ idx :: ys) :=
    List.Sublist.append_left (List.sublist_cons_self idx ys) xs
  have hnd2 : (xs ++ ys).Nodup := wnd.sublist hsub
  have hnotin2 : s.root ∉ xs ++ ys := fun hm => wnotin (hsub.mem hm)
  have hidxnotin2 : idx ∉ xs ++ ys := by
    intro hm
    rcases List.mem_append.mp hm with h | h
    · exact hidxnotin.1 h
    · exact hidxnotin.2 h
  have chains5 := chains_link_at_end h2f s.root (xs ++ ys) idx hnotin2 hnd2
    hidxnotin2 hidxroot hchains.1 hchains.2 h5 hidxnext5 hidxprev5 hr05
    hroot5 hother_next5 hother_prev5
  refine ⟨xs, ys, idx, rfl, hkeyidx, ?_, ?_⟩
  · rw [hs2]
    refine ⟨?_, ?_, ?_, ?_, ?_, chains5.1, chains5.2, ?_, ?_, wknd, wdk⟩
    · show s.root < h5.length
      rw [h5len]; exact wroot
    · intro n hn
      show n < h5.length
      rw [h5len]
      rcases List.mem_append.mp hn with h | h
      · exact wlt n (hsub.mem h)
      · have : n = idx := by simpa using h
        rw [this]; exact hidxlt
    · intro hm
      rcases List.mem_append.mp hm with h | h
      · exact hnotin2 h
      · have hri : s.root = idx := by simpa using h
        exact hidxroot hri.symm
    · refine List.Nodup.append hnd2 (List.nodup_singleton idx) ?_
      intro a ha hb
      have : a = idx := by simpa using hb
      exact hidxnotin2 (this ▸ ha)
    · show (gl h5 s.root).key = none
      rw [hkeys5]; exact wkey
    · show (s.map.map Prod.snd).Perm ((xs ++ ys) ++ [idx])
      have hstep1 : (xs ++ idx :: ys).Perm (idx :: (xs ++ ys)) :=
        List.perm_middle
      have hstep2 : ((xs ++ ys) ++ [idx]).Perm (idx :: (xs ++ ys)) :=
        List.perm_append_singleton idx (xs ++ ys)
      exact (wperm.trans hstep1).trans hstep2.symm
    · intro pr hpr
      show (gl h5 pr.2).key = some pr.1
      rw [hkeys5]
      exact wmk pr hpr
  · intro j
    rw [hs2]
    exact hkeys5 j

/-- `move_to_end(key, last=False)` on a live key unlinks its node and
re-links it just after the root; `_map`, the payload and all keys stay. -/
theorem WFw_move_first (s : OD) (ns : List Nat) (k : Nat) (w : WFw s ns)
    (s2 : OD) (hmv : s.moveToEnd k false = some s2) :
    ∃ xs ys idx, ns = xs ++ idx :: ys
      ∧ (gl s.heap idx).key = some k
      ∧ WFw s2 (idx :: (xs ++ ys))
      ∧ (∀ j, (gl s2.heap j).key = (gl s.heap j).key) := by
  obtain ⟨wroot, wlt, wnotin, wnd, wkey, wfwd, wbwd, wperm, wmk, wknd, wdk⟩
    := w
  have hk : dcontains s.d k = true := by
    cases hc : dcontains s.d k with
    | true => rfl
    | false => rw [OD.moveToEnd, hc] at hmv; simp at hmv
  have hkmem : k ∈ s.map.map Prod.fst := by
    have := (dcontains_iff s.d k).mp hk
    rwa [wdk] at this
  have hkmap : dcontains s.map k = true := (dcontains_iff s.map k).mpr hkmem
  obtain ⟨idx, hidxlk⟩ := dcontains_lookup s.map k hkmap
  have hidxval : (dlookup s.map k).getD 0 = idx := by rw [hidxlk]; rfl
  have hidxmapmem : (k, idx) ∈ s.map := by
    obtain ⟨m1, m2, hmsplit, -⟩ := lookup_split s.map k idx hidxlk
    rw [hmsplit]; simp
  have hidxns : idx ∈ ns := wperm.mem_iff.mp
    (List.mem_map_of_mem Prod.snd hidxmapmem)
  obtain ⟨xs, ys, hnssplit⟩ := List.append_of_mem hidxns
  subst hnssplit
  have hkeyidx : (gl s.heap idx).key = some k := wmk (k, idx) hidxmapmem
  have hidxnotin : idx ∉ xs ∧ idx ∉ ys := nodup_middle_not_mem xs ys idx wnd
  have hidxroot : idx ≠ s.root := fun he =>
    wnotin (he ▸ List.mem_append.mpr (Or.inr (by simp)))
  have hidxlt : idx < s.heap.length :=
    wlt idx (List.mem_append.mpr (Or.inr (by simp)))
  obtain ⟨hp, hq⟩ := unlink_pq s.heap s.root xs ys idx wfwd wbwd
  have hplt : (gl s.heap idx).prev < s.heap.length := by
    have hpmem : (gl s.heap idx).prev ∈ s.root :: xs := by
      rw [hp]; exact List.getLast_mem _
    rcases List.mem_cons.mp hpmem with h | h
    · rw [h]; exact wroot
    · exact wlt _ (List.mem_append.mpr (Or.inl h))
  have hqlt : (gl s.heap idx).next < s.heap.length := by
    rw [hq]
    cases ys with
    | nil => simpa using wroot
    | cons y0 ys' =>
      rw [List.headD_cons]
      exact wlt y0 (List.mem_append.mpr (Or.inr (by simp)))
  set p := (gl s.heap idx).prev with hpdef
  set q := (gl s.heap idx).next with hqdef
  set h1 := setNext s.heap p q with hh1
  set h2f := setPrev h1 q p with hh2f
  have h1len : h1.length = s.heap.length := length_setNext s.heap p q
  have h2len : h2f.length = s.heap.length := by
    rw [hh2f, length_setPrev, h1len]
  have hnext2 : ∀ j, j ≠ p → (gl h2f j).next = (gl s.heap j).next := by
    intro j hj
    rw [hh2f, next_setPrev, hh1, next_setNext s.heap p q j hplt, if_neg hj]
  have hprev2 : ∀ j, j ≠ q → (gl h2f j).prev = (gl s.heap j).prev := by
    intro j hj
    rw [hh2f, prev_setPrev h1 q p j (by rw [h1len]; exact hqlt), if_neg hj,
      hh1, prev_setNext]
  have hpn : (gl h2f p).next = q := by
    rw [hh2f, next_setPrev, hh1, next_setNext s.heap p q p hplt, if_pos rfl]
  have hnp : (gl h2f q).prev = p := by
    rw [hh2f, prev_setPrev h1 q p q (by rw [h1len]; exact hqlt), if_pos rfl]
  have hkeys2 : ∀ j, (gl h2f j).key = (gl s.heap j).key := by
    intro j
    rw [hh2f, key_setPrev, hh1, key_setNext]
  have hndfull : (s.root :: xs ++ idx :: ys).Nodup :=
    List.nodup_cons.mpr ⟨wnotin, wnd⟩
  have hchains := chains_unlink s.heap s.root xs ys idx hndfull wfwd wbwd
    h2f hnext2 hprev2 hpn hnp
  set r1 := (gl h2f s.root).next with hr1def
  set h3 := setNext h2f s.root idx with hh3
  set h4 := setPrev h3 r1 idx with hh4
  set p4 := setPrev h4 idx s.root with hp4
  set h5 := setNext p4 idx r1 with hh5
  have hs2 : s2 = ⟨h5, s.root, s.map, s.d⟩ := by
    have h0 : s.moveToEnd k false = some ⟨h5, s.root, s.map, s.d⟩ := by
      simp only [OD.moveToEnd, hk, hidxval, Bool.false_eq_true, if_false,
        if_true, hh5, hp4, hh4, hh3, hr1def, hh2f, hh1, hpdef, hqdef]
    rw [h0] at hmv
    exact (Option.some_inj.mp hmv).symm
  have hr1char : r1 = (xs ++ ys).headD s.root :=
    chain_head h2f s.root (xs ++ ys) Link.next hchains.1
  have hr1mem : r1 ∈ s.root :: (xs ++ ys) := by
    rw [hr1char]
    cases hxy : xs ++ ys with
    | nil => simp
    | cons a t => rw [List.headD_cons]; simp
  have hr1lt : r1 < s.heap.length := by
    rcases List.mem_cons.mp hr1mem with h | h
    · rw [h]; exact wroot
    · rcases List.mem_append.mp h with h | h
      · exact wlt _ (List.mem_append.mpr (Or.inl h))
      · exact wlt _ (List.mem_append.mpr (Or.inr (List.mem_cons_of_mem _ h)))
  have hr1idx : r1 ≠ idx := by
    intro he
    rcases List.mem_cons.mp (he ▸ hr1mem) with h | h
    · exact hidxroot h
    · rcases List.mem_append.mp h with h | h
      · exact hidxnotin.1 h
      · exact hidxnotin.2 h
  have h3len : h3.length = s.heap.length := by
    rw [hh3, length_setNext, h2len]
  have h4len : h4.length = s.heap.length := by
    rw [hh4, length_setPrev, h3len]
  have p4len : p4.length = s.heap.length := by
    rw [hp4, length_setPrev, h4len]
  have hidxprev5 : (gl h5 idx).prev = s.root := by
    rw [hh5, prev_setNext, hp4,
      prev_setPrev h4 idx s.root idx (by rw [h4len]; exact hidxlt),
      if_pos rfl]
  have hidxnext5 : (gl h5 idx).next = r1 := by
    rw [hh5, next_setNext p4 idx r1 idx (by rw [p4len]; exact hidxlt),
      if_pos rfl]
  have hrootnext5 : (gl h5 s.root).next = idx := by
    rw [hh5, next_setNext p4 idx r1 s.root (by rw [p4len]; exact hidxlt),
      if_neg (Ne.symm hidxroot), hp4, next_setPrev, hh4, next_setPrev, hh3,
      next_setNext h2f s.root idx s.root (by rw [h2len]; exact wroot),
      if_pos rfl]
  have hr15 : (gl h5 r1).prev = idx := by
    rw [hh5, prev_setNext, hp4,
      prev_setPrev h4 idx s.root r1 (by rw [h4len]; exact hidxlt),
      if_neg hr1idx, hh4,
      prev_setPrev h3 r1 idx r1 (by rw [h3len]; exact hr1lt), if_pos rfl]
  have hother_next5 : ∀ j, j ≠ idx → j ≠ s.root →
      (gl h5 j).next = (gl h2f j).next := by
    intro j hji hjr
    rw [hh5, next_setNext p4 idx r1 j (by rw [p4len]; exact hidxlt),
      if_neg hji, hp4, next_setPrev, hh4, next_setPrev, hh3,
      next_setNext h2f s.root idx j (by rw [h2len]; exact wroot),
      if_neg hjr]
  have hother_prev5 : ∀ j, j ≠ idx → j ≠ r1 →
      (gl h5 j).prev = (gl h2f j).prev := by
    intro j hji hjr
    rw [hh5, prev_setNext, hp4,
      prev_setPrev h4 idx s.root j (by rw [h4len]; exact hidxlt),
      if_neg hji, hh4,
      prev_setPrev h3 r1 idx j (by rw [h3len]; exact hr1lt),
      if_neg hjr, hh3, prev_setNext]
  have hkeys5 : ∀ j, (gl h5 j).key = (gl s.heap j).key := by
    intro j
    rw [hh5, key_setNext, hp4, key_setPrev, hh4, key_setPrev, hh3,
      key_setNext, hkeys2]
  have h5len : h5.length = s.heap.length := by
    rw [hh5, length_setNext, p4len]
  have hsub : (xs ++ ys).Sublist (xs ++ idx :: ys) :=
    List.Sublist.append_left (List.sublist_cons_self idx ys) xs
  have hnd2 : (xs ++ ys).Nodup := wnd.sublist hsub
  have hnotin2 : s.root ∉ xs ++ ys := fun hm => wnotin (hsub.mem hm)
  have hidxnotin2 : idx ∉ xs ++ ys := by
    intro hm
    rcases List.mem_append.mp hm with h | h
    · exact hidxnotin.1 h
    · exact hidxnotin.2 h
  have chains5 := chains_link_at_front h2f s.root (xs ++ ys) idx hnotin2
    hnd2 hidxnotin2 hidxroot hchains.1 hchains.2 h5 hidxprev5 hidxnext5
    hrootnext5 hr15 hother_next5 hother_prev5
  refine ⟨xs, ys, idx, rfl, hkeyidx, ?_, ?_⟩
  · rw [hs2]
    refine ⟨?_, ?_, ?_, ?_, ?_, chains5.1, chains5.2, ?_, ?_, wknd, wdk⟩
    · show s.root < h5.length
      rw [h5len]; exact wroot
    · intro n hn
      show n < h5.length
      rw [h5len]
      rcases List.mem_cons.mp hn with h | h
      · rw [h]; exact hidxlt
      · exact wlt n (hsub.mem h)
    · intro hm
      rcases List.mem_cons.mp hm with h | h
      · exact hidxroot h.symm
      · exact hnotin2 h
    · exact List.nodup_cons.mpr ⟨hidxnotin2, hnd2⟩
    · show (gl h5 s.root).key = none
      rw [hkeys5]; exact wkey
    · show (s.map.map Prod.snd).Perm (idx :: (xs ++ ys))
      exact wperm.trans List.perm_middle
    · intro pr hpr
      show (gl h5 pr.2).key = some pr.1
      rw [hkeys5]
      exact wmk pr hpr
  · intro j
    rw [hs2]
    exact hkeys5 j

theorem WF_pop (s : OD) (k : Nat) (hwf : WF s) :
    ∀ r, s.pop k = some r → WF r.1 := by
  intro r hr
  obtain ⟨ns, w⟩ := hwf
  unfold OD.pop at hr
  split at hr
  · simp at hr
  · rename_i v0 hdl
    split at hr
    · rename_i s2 hde
      obtain ⟨xs, ys, idx, -, -, hwf2, -⟩ := WFw_delitem s ns k w s2 hde
      have hreq : r = (s2, v0) := (Option.some_inj.mp hr).symm
      rw [hreq]
      exact ⟨xs ++ ys, hwf2⟩
    · simp at hr

theorem WF_popitem (s : OD) (hwf : WF s) :
    ∀ b r, s.popitem b = some r → WF r.2 := by
  intro b r hr
  unfold OD.popitem at hr
  split at hr
  · simp at hr
  · split at hr
    · simp at hr
    · rename_i k0 hh
      split at hr
      · rename_i r0 hp
        have hreq : r = ((k0, r0.2), r0.1) := (Option.some_inj.mp hr).symm
        rw [hreq]
        exact WF_pop s k0 hwf r0 hp
      · simp at hr

/-- C8: every `OrderedDict` operation preserves the link-structure
invariant — one node per live key, the root never a real key, `next`
pointers running root → oldest → … → newest → root and `prev` pointers the
exact opposite — and consequently forward iteration visits each live key
exactly once, reverse iteration is its mirror, a fresh key is appended at
the newest end, a deletion removes exactly its key, and `move_to_end`
moves exactly its key to the requested side. -/
theorem ordered_dict_link_invariant (s : OD) (k v : Nat) (h : WF s) :
    linkInvariantConcl s k v := by
  obtain ⟨ns, w⟩ := h
  have wcopy := w
  obtain ⟨wroot, wlt, wnotin, wnd, wkey, wfwd, wbwd, wperm, wmk, wknd, wdk⟩
    := wcopy
  have hik : s.iterKeys = ns.map (fun n => (gl s.heap n).key.getD 0) :=
    iterKeys_eq s ns w
  have hperm : s.iterKeys.Perm (s.map.map Prod.fst) := by
    have heq : (s.map.map Prod.snd).map (fun n => (gl s.heap n).key.getD 0)
        = s.map.map Prod.fst := by
      rw [List.map_map]
      refine List.map_congr_left ?_
      intro p hp
      simp [Function.comp, wmk p hp]
    rw [hik, ← heq]
    exact (wperm.map _).symm
  refine ⟨WF_setitem s k v ⟨ns, w⟩, ?_, WF_pop s k ⟨ns, w⟩,
    WF_popitem s ⟨ns, w⟩, ?_, fun items => WF_update items s ⟨ns, w⟩,
    ⟨[], WFw_clear s⟩, ?_, fun ks w0 => WF_update _ _ WF_empty, ?_,
    hperm.nodup_iff.mpr wknd, hperm, wkey, ?_, ?_, ?_, ?_, ?_⟩
  · intro s2 hdel
    obtain ⟨xs, ys, idx, -, -, hwf2, -⟩ := WFw_delitem s ns k w s2 hdel
    exact ⟨xs ++ ys, hwf2⟩
  · cases hc : dcontains s.d k with
    | true =>
      have hset : (s.setdefault k v).1 = s := by
        simp [OD.setdefault, hc]
      rw [hset]
      exact ⟨ns, w⟩
    | false =>
      have hset : (s.setdefault k v).1 = s.setitem k v := by
        simp [OD.setdefault, hc]
      rw [hset]
      exact WF_setitem s k v ⟨ns, w⟩
  · intro b s2 hmv
    cases b with
    | true =>
      obtain ⟨xs, ys, idx, -, -, hwf2, -⟩ := WFw_move_last s ns k w s2 hmv
      exact ⟨(xs ++ ys) ++ [idx], hwf2⟩
    | false =>
      obtain ⟨xs, ys, idx, -, -, hwf2, -⟩ := WFw_move_first s ns k w s2 hmv
      exact ⟨idx :: (xs ++ ys), hwf2⟩
  · rw [hik, iterKeysRev_eq s ns w]
  · intro hk
    obtain ⟨hwfnew, hkeep, hkeyL⟩ := WFw_setitem_new s ns k v w hk
    rw [iterKeys_eq _ _ hwfnew, List.map_append, hik]
    have hmapeq : ns.map
          (fun n => (gl (s.setitem k v).heap n).key.getD 0)
        = ns.map (fun n => (gl s.heap n).key.getD 0) := by
      refine List.map_congr_left ?_
      intro n hn
      rw [hkeep n (by have := wlt n hn; omega)]
    rw [hmapeq]
    simp [hkeyL]
  · intro hk
    obtain ⟨-, hheap, hroot⟩ := WFw_setitem_old s ns k v w hk
    show (s.setitem k v).iterKeys = s.iterKeys
    unfold OD.iterKeys
    rw [hheap, hroot]
  · intro s2 hdel
    obtain ⟨xs, ys, idx, hsplit, hkeyidx, hwf2, hkeys⟩ :=
      WFw_delitem s ns k w s2 hdel
    refine ⟨xs.map (fun n => (gl s.heap n).key.getD 0),
      ys.map (fun n => (gl s.heap n).key.getD 0), ?_, ?_⟩
    · rw [hik, hsplit]
      simp [hkeyidx]
    · rw [iterKeys_eq s2 (xs ++ ys) hwf2, List.map_append]
      have hcong : ∀ l : List Nat, l.map
            (fun n => (gl s2.heap n).key.getD 0)
          = l.map (fun n => (gl s.heap n).key.getD 0) := by
        intro l
        refine List.map_congr_left ?_
        intro n _
        rw [hkeys n]
      rw [hcong xs, hcong ys]
  · intro s2 hmv
    obtain ⟨xs, ys, idx, hsplit, hkeyidx, hwf2, hkeys⟩ :=
      WFw_move_last s ns k w s2 hmv
    refine ⟨xs.map (fun n => (gl s.heap n).key.getD 0),
      ys.map (fun n => (gl s.heap n).key.getD 0), ?_, ?_⟩
    · rw [hik, hsplit]
      simp [hkeyidx]
    · rw [iterKeys_eq s2 ((xs ++ ys) ++ [idx]) hwf2]
      have hcong : ∀ l : List Nat, l.map
            (fun n => (gl s2.heap n).key.getD 0)
          = l.map (fun n => (gl s.heap n).key.getD 0) := by
        intro l
        refine List.map_congr_left ?_
        intro n _
        rw [hkeys n]
      rw [List.map_append, List.map_append, hcong xs, hcong ys]
      simp [hkeys idx, hkeyidx]
  · intro s2 hmv
    obtain ⟨xs, ys, idx, hsplit, hkeyidx, hwf2, hkeys⟩ :=
      WFw_move_first s ns k w s2 hmv
    refine ⟨xs.map (fun n => (gl s.heap n).key.getD 0),
      ys.map (fun n => (gl s.heap n).key.getD 0), ?_, ?_⟩
    · rw [hik, hsplit]
      simp [hkeyidx]
    · rw [iterKeys_eq s2 (idx :: (xs ++ ys)) hwf2]
      have hcong : ∀ l : List Nat, l.map
            (fun n => (gl s2.heap n).key.getD 0)
          = l.map (fun n => (gl s.heap n).key.getD 0) := by
        intro l
        refine List.map_congr_left ?_
        intro n _
        rw [hkeys n]
      rw [List.map_cons, List.map_append, hcong xs, hcong ys, hkeys idx,
        hkeyidx]
      rfl

theorem demoOD_wf : WF demoOD :=
  ⟨[1, 2], by decide, by decide, by decide, by decide, by decide,
    List.chain'_cons.mpr ⟨rfl, List.chain'_cons.mpr ⟨rfl,
      List.chain'_cons.mpr ⟨rfl, List.chain'_singleton _⟩⟩⟩,
    List.chain'_cons.mpr ⟨rfl, List.chain'_cons.mpr ⟨rfl,
      List.chain'_cons.mpr ⟨rfl, List.chain'_singleton _⟩⟩⟩,
    by decide, by decide, by decide, by decide⟩

/-- C8 witness: the two-key `OrderedDict` `demoOD` is well formed, and the
invariant-preservation bundle holds for it at key 1, value 5. -/
theorem ordered_dict_link_invariant_witness :
    WF demoOD ∧ linkInvariantConcl demoOD 1 5 :=
  ⟨demoOD_wf, ordered_dict_link_invariant demoOD 1 5 demoOD_wf⟩

end Brownie
